import Mathlib

/-
Verification of the pipeline-parallel training schedules implemented in
megatron/schedules.py.

The three schedulers (standard 1F1B `forward_backward_pipelining`, the
interleaved variant `forward_backward_pipelining_with_interleaving`, and the
continuous variant `forward_backward_pipelining_no_flushes`) are embedded as
pure trace generators: each produces the sequence of compute / channel /
telemetry calls issued by one rank, together with the final contents of the
activation queues.  Tensors are replaced by labels (the index of the forward
step that produced them); queue operations mirror the Python list operations
(append at the tail, pop(0) at the head, peek at [-1]) exactly, and
operations that would raise in Python (pop from an empty list, index out of
range) make the interleaved and continuous generators return none.
-/

namespace Sched

/-- One observable call issued by a scheduler: point-to-point channel
operations, the stall-measurement barrier, virtual-chunk selection,
forward/backward compute (labelled by the forward step that produced the
consumed activation), and the dual-version optimizer switches. -/
inductive Ev where
  | RecvFwd (ring : Bool)
  | SendFwd
  | RecvBwd (ring : Bool)
  | SendBwd
  | SendFwdRecvBwd
  | SendBwdRecvFwd
  | SendFwdRecvFwd (recvPrev : Bool)
  | SendBwdRecvBwd (recvNext : Bool)
  | Comm4 (recvPrev recvNext : Bool)
  | Barrier
  | SetVChunk (c : ℕ)
  | FComp (i : ℕ)
  | BComp (i : ℕ)
  | FCompV (i : ℕ) (old : Bool)
  | BCompV (i : ℕ) (old : Bool)
  | SwapOlder
  | SwapNewer
deriving DecidableEq, Repr

/-- Labels of forward computations, in trace order. -/
def fLabels (l : List Ev) : List ℕ :=
  l.filterMap fun e =>
    match e with
    | .FComp i => some i
    | .FCompV i _ => some i
    | _ => none

/-- Labels of backward computations, in trace order: for each backward, the
label of the activation it popped from the queue. -/
def bLabels (l : List Ev) : List ℕ :=
  l.filterMap fun e =>
    match e with
    | .BComp i => some i
    | .BCompV i _ => some i
    | _ => none

/-- Optimizer versions used by the forward computes of the continuous
scheduler, in trace order (true = older version). -/
def fVers (l : List Ev) : List Bool :=
  l.filterMap fun e =>
    match e with
    | .FCompV _ old => some old
    | _ => none

/-- Optimizer versions used by the backward computes of the continuous
scheduler, in trace order (true = older version). -/
def bVers (l : List Ev) : List Bool :=
  l.filterMap fun e =>
    match e with
    | .BCompV _ old => some old
    | _ => none

/-- Channel calls that create a gradient slot on this rank (a receive of a
gradient from the successor). -/
def gradSlotEvs (l : List Ev) : List Ev :=
  l.filter fun e =>
    match e with
    | .RecvBwd _ => true
    | .SendFwdRecvBwd => true
    | _ => false

/-- Stall-measurement barrier calls in the trace. -/
def barrierEvs (l : List Ev) : List Ev :=
  l.filter fun e =>
    match e with
    | .Barrier => true
    | _ => false

/-- Everything except the virtual-chunk bookkeeping calls. -/
def nonBookkeeping (l : List Ev) : List Ev :=
  l.filter fun e =>
    match e with
    | .SetVChunk _ => false
    | _ => true

/-- Pop the head of a queue (Python list.pop(0)); the call sites below only
apply it to queues that are provably non-empty. -/
def popHead : List ℕ → ℕ × List ℕ
  | [] => (0, [])
  | x :: xs => (x, xs)

/-! ### Standard 1F1B scheduler (`forward_backward_pipelining`) -/

/-- Warm-up count of the standard scheduler: min(world_size - rank - 1,
num_microbatches), forced to 1 when num_microbatches == 1, overridden to
num_microbatches when the gpipe flag is set. -/
def std_num_warmup (S r m : ℕ) (gpipe : Bool) : ℕ :=
  let w := min (S - r - 1) m
  let w := if m = 1 then 1 else w
  if gpipe then m else w

/-- Steady-state count of the standard scheduler. -/
def std_num_remaining (S r m : ℕ) (gpipe : Bool) : ℕ :=
  m - std_num_warmup S r m gpipe

/-- Events of one warm-up iteration of the standard scheduler: receive
activation, forward compute, the stall barrier on the last iteration (unless
gpipe or a single micro-batch), send activation. -/
def std_warm_body (gpipe : Bool) (m W : ℕ) (i : ℕ) : List Ev :=
  [.RecvFwd false, .FComp i]
    ++ (if i = W - 1 ∧ gpipe = false ∧ 1 < m then [.Barrier] else [])
    ++ [.SendFwd]

/-- Warm-up loop of the standard scheduler: runs over the index list, pushes
the activation label of each forward at the tail of both queues. -/
def std_warm (g : Bool) (m W : ℕ) :
    List ℕ → List ℕ → List ℕ → List Ev × List ℕ × List ℕ
  | [], inQ, outQ => ([], inQ, outQ)
  | i :: rest, inQ, outQ =>
    let p := std_warm g m W rest (inQ ++ [i]) (outQ ++ [i])
    (std_warm_body g m W i ++ p.1, p.2)

/-- Steady-state loop of the standard scheduler: one forward then (unless
forward-only) one backward per iteration; the backward pops the heads of the
queues right after the new activation was appended at the tail. -/
def std_steady (fo : Bool) (W R : ℕ) :
    List ℕ → List ℕ → List ℕ → List Ev × List ℕ × List ℕ
  | [], inQ, outQ => ([], inQ, outQ)
  | i :: rest, inQ, outQ =>
    if fo then
      let evs := [.FComp (W + i), .SendFwd]
        ++ (if i = R - 1 then [] else [.RecvFwd false])
      let p := std_steady fo W R rest (inQ ++ [W + i]) (outQ ++ [W + i])
      (evs ++ p.1, p.2)
    else
      let pi := popHead (inQ ++ [W + i])
      let po := popHead (outQ ++ [W + i])
      let evs := [.FComp (W + i), .SendFwdRecvBwd, .BComp po.1]
        ++ (if i = R - 1 then [.SendBwd] else [.SendBwdRecvFwd])
      let p := std_steady fo W R rest pi.2 po.2
      (evs ++ p.1, p.2)

/-- Cool-down loop of the standard scheduler: pops one activation pair per
iteration, receiving the gradient first and sending the input gradient after
the backward compute. -/
def std_cool : List ℕ → List ℕ → List ℕ → List Ev × List ℕ × List ℕ
  | [], inQ, outQ => ([], inQ, outQ)
  | _ :: rest, inQ, outQ =>
    let pi := popHead inQ
    let po := popHead outQ
    let p := std_cool rest pi.2 po.2
    ([.RecvBwd false, .BComp po.1, .SendBwd] ++ p.1, p.2)

/-- The standard 1F1B scheduler: trace of one invocation together with the
final contents of the input/output activation queues. -/
def forward_backward_pipelining (S r m : ℕ) (fo gpipe : Bool) :
    List Ev × List ℕ × List ℕ :=
  let W := std_num_warmup S r m gpipe
  let R := m - W
  let w := std_warm gpipe m W (List.range W) [] []
  let mid : List Ev :=
    (if W = 0 ∧ gpipe = false then [.Barrier] else [])
      ++ (if 0 < R then [.RecvFwd false] else [])
  let s := std_steady fo W R (List.range R) w.2.1 w.2.2
  let c := if fo then (([] : List Ev), s.2) else std_cool (List.range W) s.2.1 s.2.2
  (w.1 ++ mid ++ s.1 ++ c.1, c.2)

/-! ### Chunk selection and receive-suppression of the interleaved scheduler -/

/-- get_model_chunk_id: within a window of world_size * num_model_chunks
steps, the chunk index advances every world_size steps; backward steps
traverse the chunks in reverse.  Defined on ℤ because the steady-state flag
computation calls it at k - (world_size - 1), which can be negative; % and /
are the Euclidean operations, which agree with Python for the positive
modulus used here. -/
def get_model_chunk_id (S C : ℕ) (k : ℤ) (forward : Bool) : ℤ :=
  let kg := k % ((S : ℤ) * C)
  let i := kg / S
  if forward then i else (C : ℤ) - i - 1

/-- Chunk of a (non-negative) forward step, as a natural number; agrees with
get_model_chunk_id on ℕ inputs. -/
def chunkF (S C k : ℕ) : ℕ := (k % (S * C)) / S

/-- Steady-state receive-forward flag and destination chunk (lines 215-224
and 239-240 of schedules.py): at the first physical stage the next tensor
would land one chunk after the chunk of step forward_k - (world_size - 1),
and the receive is suppressed when that base chunk is the last one; the
receive is also suppressed on the final steady iteration. -/
def steady_recv_prev_dest (S r C W R k : ℕ) : Bool × ℤ :=
  let fk := W + k
  let base :=
    if r = 0 then
      let t := get_model_chunk_id S C ((fk : ℤ) - ((S : ℤ) - 1)) true
      (decide ¬(t = (C : ℤ) - 1), t + 1)
    else (true, get_model_chunk_id S C ((fk : ℤ) + 1) true)
  (base.1 && decide ¬(k = R - 1), base.2)

/-- Steady-state receive-backward flag and destination chunk (lines 226-235
of schedules.py): at the last physical stage the next gradient would land
one chunk before the chunk of step backward_k - (world_size - 1), and the
receive is suppressed when that base chunk is chunk 0. -/
def steady_recv_next_dest (S r C : ℕ) (k : ℕ) : Bool × ℤ :=
  if r = S - 1 then
    let t := get_model_chunk_id S C ((k : ℤ) - ((S : ℤ) - 1)) false
    (decide ¬(t = 0), t - 1)
  else (true, get_model_chunk_id S C ((k : ℤ) + 1) false)

/-! ### Interleaved scheduler (`forward_backward_pipelining_with_interleaving`) -/

/-- Warm-up count of the interleaved scheduler over the total of
num_microbatches * num_model_chunks steps. -/
def int_num_warmup (S r m C : ℕ) (fo : Bool) : ℕ :=
  let N := m * C
  if fo then N
  else if m = S then N
  else min (2 * (S - r - 1) + (C - 1) * S) N

/-- The degenerate all-warm-up flag of the interleaved scheduler. -/
def int_all_warmup (S m : ℕ) (fo : Bool) : Bool :=
  !fo && decide (m = S)

/-- Steady-state count of the interleaved scheduler. -/
def int_num_remaining (S r m C : ℕ) (fo : Bool) : ℕ :=
  m * C - int_num_warmup S r m C fo

/-- Per-rank state of the interleaved scheduler: per-chunk input queue
lengths, per-chunk output activation queues (holding forward-step labels),
the per-chunk histories of produced and consumed activation labels, and
per-chunk gradient queue lengths.  Input and gradient entries are opaque
(only their count matters to control flow), activations carry labels. -/
structure IntState where
  inLen : List ℕ
  outQ : List (List ℕ)
  produced : List (List ℕ)
  consumed : List (List ℕ)
  gradLen : List ℕ
deriving DecidableEq, Repr

/-- Append one (opaque) entry to the input queue of chunk c. -/
def bumpIn (st : IntState) (c : ℕ) : Option IntState :=
  if c < st.inLen.length then
    some { st with inLen := st.inLen.set c (st.inLen.getD c 0 + 1) }
  else none

/-- Pop the head of the input queue of chunk c; fails if empty. -/
def dropIn (st : IntState) (c : ℕ) : Option IntState :=
  if 0 < st.inLen.getD c 0 then
    some { st with inLen := st.inLen.set c (st.inLen.getD c 0 - 1) }
  else none

/-- Append one (opaque) entry to the gradient queue of chunk c. -/
def bumpGrad (st : IntState) (c : ℕ) : Option IntState :=
  if c < st.gradLen.length then
    some { st with gradLen := st.gradLen.set c (st.gradLen.getD c 0 + 1) }
  else none

/-- Pop the head of the gradient queue of chunk c; fails if empty. -/
def dropGrad (st : IntState) (c : ℕ) : Option IntState :=
  if 0 < st.gradLen.getD c 0 then
    some { st with gradLen := st.gradLen.set c (st.gradLen.getD c 0 - 1) }
  else none

/-- Append an activation label at the tail of chunk c's output queue,
recording it in the produced history. -/
def pushOut (st : IntState) (c lab : ℕ) : Option IntState :=
  if c < st.outQ.length ∧ c < st.produced.length then
    some { st with
      outQ := st.outQ.set c (st.outQ.getD c [] ++ [lab]),
      produced := st.produced.set c (st.produced.getD c [] ++ [lab]) }
  else none

/-- Pop the activation label at the head of chunk c's output queue,
recording it in the consumed history; fails if the queue is empty. -/
def popOut (st : IntState) (c : ℕ) : Option (ℕ × IntState) :=
  if c < st.consumed.length then
    match st.outQ.getD c [] with
    | [] => none
    | x :: rest =>
      some (x, { st with
        outQ := st.outQ.set c rest,
        consumed := st.consumed.set c (st.consumed.getD c [] ++ [x]) })
  else none

/-- forward_step_helper: select the chunk of step k, at the virtual first
stage append a fresh None input when the input queue has fallen level with
the output queue, peek the last input (fails if there is none), run the
forward compute and append its activation. -/
def int_fwd_helper (S r C : ℕ) (k : ℕ) (st : IntState) :
    Option (List Ev × IntState) :=
  let c := chunkF S C k
  let st1 :=
    if r = 0 ∧ c = 0 ∧ st.inLen.getD c 0 = (st.outQ.getD c []).length then
      bumpIn st c
    else some st
  st1.bind fun st1 =>
    if 0 < st1.inLen.getD c 0 then
      (pushOut st1 c k).map fun st2 => ([Ev.SetVChunk c, Ev.FComp k], st2)
    else none

/-- backward_step_helper: select the chunk of backward step k, at the
virtual last stage append a fresh None gradient when the gradient queue is
empty, then pop the input, activation and gradient heads of that chunk. -/
def int_bwd_helper (S r C : ℕ) (k : ℕ) (st : IntState) :
    Option (List Ev × IntState) :=
  let c := C - 1 - chunkF S C k
  let st1 :=
    if r = S - 1 ∧ c = C - 1 ∧ st.gradLen.getD c 0 = 0 then
      bumpGrad st c
    else some st
  st1.bind fun st1 =>
    (dropIn st1 c).bind fun st2 =>
      (popOut st2 c).bind fun p =>
        (dropGrad p.2 c).map fun st3 =>
          ([Ev.SetVChunk c, Ev.BComp p.1], st3)

/-- One warm-up iteration of the interleaved scheduler (lines 161-186):
forward on step k, then either the combined four-way exchange (on the last
warm-up iteration of a training run that has a steady state, which also
primes the last chunk's gradient queue) or a send-forward/receive-forward,
finally appending the received (possibly None) input to the next forward
chunk's queue. -/
def int_warm_step (S r C N W : ℕ) (fo allW : Bool) (k : ℕ) (st : IntState) :
    Option (List Ev × IntState) :=
  (int_fwd_helper S r C k st).bind fun q =>
    let nf := chunkF S C (k + 1)
    let recvPrev := (!(decide (r = 0) && decide (nf = 0))) && !(decide (k = N - 1))
    if decide (k = W - 1) && !fo && !allW then
      let recvNext := !(decide (r = S - 1))
      (bumpGrad q.2 (C - 1)).bind fun st2 =>
        (bumpIn st2 nf).map fun st3 =>
          (q.1 ++ [Ev.Comm4 recvPrev recvNext], st3)
    else
      (bumpIn q.2 nf).map fun st3 =>
        (q.1 ++ [Ev.SendFwdRecvFwd recvPrev], st3)

/-- One steady-state iteration of the interleaved scheduler (lines 189-253):
forward on step k + W, backward on step k, chunk re-selection for the send
directions, then the combined four-way exchange with the receive flags of
steady_recv_prev_dest / steady_recv_next_dest, appending what was received
to the computed destination chunks. -/
def int_steady_step (S r C W R : ℕ) (k : ℕ) (st : IntState) :
    Option (List Ev × IntState) :=
  (int_fwd_helper S r C (k + W) st).bind fun qf =>
    (int_bwd_helper S r C k qf.2).bind fun qb =>
      let fchunk := chunkF S C (k + W)
      let bchunk := C - 1 - chunkF S C k
      let pr := steady_recv_prev_dest S r C W R k
      let pn := steady_recv_next_dest S r C k
      ((if pr.1 then bumpIn qb.2 pr.2.toNat else some qb.2).bind fun st3 =>
        (if pn.1 then bumpGrad st3 pn.2.toNat else some st3).map fun st4 =>
          (qf.1 ++ qb.1
            ++ [Ev.SetVChunk fchunk, Ev.SetVChunk bchunk, Ev.Comm4 pr.1 pn.1],
           st4))

/-- One cool-down iteration of the interleaved scheduler (lines 260-270):
backward on step k, then send-backward/receive-backward with the receive
suppressed at the physical last stage when the next backward chunk is the
last chunk, and on the very last step; the received (possibly None)
gradient is appended unconditionally. -/
def int_cool_step (S r C N : ℕ) (k : ℕ) (st : IntState) :
    Option (List Ev × IntState) :=
  (int_bwd_helper S r C k st).bind fun q =>
    let nb := C - 1 - chunkF S C (k + 1)
    let recvNext := (!(decide (r = S - 1) && decide (nb = C - 1))) && !(decide (k = N - 1))
    (bumpGrad q.2 nb).map fun st2 =>
      (q.1 ++ [Ev.SendBwdRecvBwd recvNext], st2)

/-- Run a step function over a list of loop indices, concatenating the
emitted events and threading the state; fails as soon as one step fails. -/
def runSteps {σ : Type} (step : ℕ → σ → Option (List Ev × σ)) :
    List ℕ → σ → Option (List Ev × σ)
  | [], st => some ([], st)
  | k :: rest, st =>
    (step k st).bind fun p =>
      (runSteps step rest p.2).map fun q => (p.1 ++ q.1, q.2)

/-- The interleaved 1F1B scheduler: warm-up, steady state and cool-down over
num_microbatches * num_model_chunks steps, starting from empty per-chunk
queues after the initial ring-exchange receive into chunk 0. -/
def forward_backward_pipelining_with_interleaving (S r m C : ℕ) (fo : Bool) :
    Option (List Ev × IntState) :=
  let N := m * C
  let W := int_num_warmup S r m C fo
  let R := N - W
  let allW := int_all_warmup S m fo
  let st0 : IntState :=
    ⟨List.replicate C 0, List.replicate C [], List.replicate C [],
     List.replicate C [], List.replicate C 0⟩
  (bumpIn st0 0).bind fun st1 =>
    (runSteps (int_warm_step S r C N W fo allW) (List.range W) st1).bind fun pw =>
      (runSteps (int_steady_step S r C W R) (List.range R) pw.2).bind fun ps =>
        (if fo then some ([], ps.2)
         else
           (if allW then
              (bumpGrad ps.2 (C - 1)).map fun st => ([Ev.RecvBwd true], st)
            else some ([], ps.2)).bind fun pc0 =>
             (runSteps (int_cool_step S r C N) (List.range' R (N - R)) pc0.2).map
               fun pc => (pc0.1 ++ pc.1, pc.2)).map fun pc =>
          ([Ev.SetVChunk 0, Ev.RecvFwd true] ++ pw.1 ++ ps.1 ++ pc.1, pc.2)

/-! ### Continuous scheduler (`forward_backward_pipelining_no_flushes`) -/

/-- Cross-invocation state of the continuous scheduler: the process-wide
input and output activation queues (labels), label counters for freshly
received inputs and freshly computed activations, and the histories of
pushed and popped labels of both queues. -/
structure NFState where
  inQ : List ℕ
  outQ : List ℕ
  nextIn : ℕ
  nextOut : ℕ
  pushedIn : List ℕ
  pushedOut : List ℕ
  poppedIn : List ℕ
  poppedOut : List ℕ
deriving DecidableEq, Repr

/-- Append a freshly received input at the tail of the input queue. -/
def nf_push_in (st : NFState) : NFState :=
  { st with
    inQ := st.inQ ++ [st.nextIn],
    pushedIn := st.pushedIn ++ [st.nextIn],
    nextIn := st.nextIn + 1 }

/-- Append a freshly computed activation at the tail of the output queue. -/
def nf_push_out (st : NFState) : NFState :=
  { st with
    outQ := st.outQ ++ [st.nextOut],
    pushedOut := st.pushedOut ++ [st.nextOut],
    nextOut := st.nextOut + 1 }

/-- One warm-up iteration of the continuous scheduler (lines 412-425):
receive, switch to the older parameter version, forward, the stall barrier
on the last warm-up iteration, send, then append input and output. -/
def nf_warm_step (W : ℕ) (i : ℕ) (st : NFState) : Option (List Ev × NFState) :=
  some ([Ev.RecvFwd false, Ev.SwapOlder, Ev.FCompV st.nextOut true]
      ++ (if i = W - 1 then [Ev.Barrier] else []) ++ [Ev.SendFwd],
    nf_push_out (nf_push_in st))

/-- One steady-state iteration of the continuous scheduler (lines 441-469):
peek the most recent input (fails if the queue is empty), switch the
optimizer to the older version while the forward still precedes the first
retired micro-batch and to the newer version afterwards, forward, combined
send-forward/receive-backward, append the activation, pop the oldest
input/activation pair, switch to the older version, backward, then either a
final send-backward or a combined send-backward/receive-forward whose
received input is appended. -/
def nf_steady_step (m W1 R : ℕ) (lastIt : Bool) (i : ℕ) (st : NFState) :
    Option (List Ev × NFState) :=
  match st.inQ with
  | [] => none
  | a :: inRest =>
    let old := decide (i < m - W1)
    let st1 := nf_push_out st
    let po := popHead st1.outQ
    let st2 := { st1 with
      inQ := inRest, outQ := po.2,
      poppedIn := st1.poppedIn ++ [a],
      poppedOut := st1.poppedOut ++ [po.1] }
    let evs1 := [(if old then Ev.SwapOlder else Ev.SwapNewer),
      Ev.FCompV st.nextOut old, Ev.SendFwdRecvBwd, Ev.SwapOlder,
      Ev.BCompV po.1 true]
    if decide (i = R - 1) && lastIt then
      some (evs1 ++ [Ev.SendBwd], st2)
    else
      some (evs1 ++ [Ev.SendBwdRecvFwd], nf_push_in st2)

/-- One cool-down iteration of the continuous scheduler (lines 472-483):
pop the oldest input/activation pair (fails if either queue is empty),
receive the gradient, switch to the older version, backward, send. -/
def nf_cool_step (_ : ℕ) (st : NFState) : Option (List Ev × NFState) :=
  match st.inQ, st.outQ with
  | a :: inRest, b :: outRest =>
    some ([Ev.RecvBwd false, Ev.SwapOlder, Ev.BCompV b true, Ev.SendBwd],
      { st with
        inQ := inRest, outQ := outRest,
        poppedIn := st.poppedIn ++ [a],
        poppedOut := st.poppedOut ++ [b] })
  | _, _ => none

/-- The continuous (no-flush) scheduler: one invocation, with the warm-up
phase only on the first outer iteration and the cool-down phase only on the
last, acting on the persistent queues passed in. -/
def forward_backward_pipelining_no_flushes (S r m : ℕ) (firstIt lastIt : Bool)
    (st : NFState) : Option (List Ev × NFState) :=
  let W0 := min (S - r - 1) m
  let R := if lastIt then m - W0 else m
  let W := if firstIt then W0 else 0
  let CD := if lastIt then W0 else 0
  (runSteps (nf_warm_step W) (List.range W) st).bind fun pw =>
    let mid : List Ev :=
      if firstIt then
        (if W = 0 then [Ev.Barrier] else [])
          ++ (if 0 < R then [Ev.RecvFwd false] else [])
      else []
    let st1 := if firstIt ∧ 0 < R then nf_push_in pw.2 else pw.2
    (runSteps (nf_steady_step m W0 R lastIt) (List.range R) st1).bind fun ps =>
      (runSteps nf_cool_step (List.range CD) ps.2).map fun pc =>
        (pw.1 ++ mid ++ ps.1 ++ pc.1, pc.2)

/-! ### Generic helpers about traces built from loops -/

theorem filterMap_flatMap_eq {β : Type} (p : Ev → Option β) (g : ℕ → List Ev)
    (f : ℕ → List β) (h : ∀ i, (g i).filterMap p = f i) :
    ∀ l : List ℕ, (l.flatMap g).filterMap p = l.flatMap f := by
  intro l
  induction l with
  | nil => simp
  | cons a t ih => simp [List.flatMap_cons, List.filterMap_append, h, ih]

theorem filter_flatMap_eq (p : Ev → Bool) (g : ℕ → List Ev)
    (f : ℕ → List Ev) (h : ∀ i, (g i).filter p = f i) :
    ∀ l : List ℕ, (l.flatMap g).filter p = l.flatMap f := by
  intro l
  induction l with
  | nil => simp
  | cons a t ih => simp [List.flatMap_cons, List.filter_append, h, ih]

theorem flatMap_pure {β : Type} (f : ℕ → β) :
    ∀ l : List ℕ, (l.flatMap fun i => [f i]) = l.map f := by
  intro l
  induction l with
  | nil => simp
  | cons a t ih => simp [List.flatMap_cons, ih]

theorem flatMap_none {β : Type} :
    ∀ l : List ℕ, (l.flatMap fun _ => ([] : List β)) = [] := by
  intro l
  induction l with
  | nil => simp
  | cons a t ih => simp [List.flatMap_cons, ih]

theorem flatMap_const {β : Type} (x : β) :
    ∀ l : List ℕ, (l.flatMap fun _ => [x]) = List.replicate l.length x := by
  intro l
  induction l with
  | nil => simp
  | cons a t ih => simp [List.flatMap_cons, ih, List.replicate]

/-! ### Structure of the standard scheduler trace -/

theorem std_warm_eq (g : Bool) (m W : ℕ) :
    ∀ (l inQ outQ : List ℕ), std_warm g m W l inQ outQ =
      (l.flatMap (std_warm_body g m W), inQ ++ l, outQ ++ l) := by
  intro l
  induction l with
  | nil => intro inQ outQ; simp [std_warm]
  | cons i rest ih =>
    intro inQ outQ
    simp [std_warm, ih, List.flatMap_cons, List.append_assoc]

theorem std_steady_fo_events (W R : ℕ) :
    ∀ (l inQ outQ : List ℕ), (std_steady true W R l inQ outQ).1 =
      l.flatMap fun t => [Ev.FComp (W + t), Ev.SendFwd]
        ++ (if t = R - 1 then [] else [Ev.RecvFwd false]) := by
  intro l
  induction l with
  | nil => intro inQ outQ; simp [std_steady]
  | cons i rest ih =>
    intro inQ outQ
    simp [std_steady, ih, List.flatMap_cons]

theorem std_steady_run (W R : ℕ) :
    ∀ (j i : ℕ), std_steady false W R (List.range' i j) (List.range' i W)
        (List.range' i W) =
      ((List.range' i j).flatMap fun t =>
          [Ev.FComp (W + t), Ev.SendFwdRecvBwd, Ev.BComp t]
            ++ (if t = R - 1 then [Ev.SendBwd] else [Ev.SendBwdRecvFwd]),
       List.range' (i + j) W, List.range' (i + j) W) := by
  intro j
  induction j with
  | zero => intro i; simp [std_steady]
  | succ j ih =>
    intro i
    have hq : List.range' i W ++ [W + i] = List.range' i (W + 1) := by
      rw [List.range'_1_concat, Nat.add_comm i W]
    have hpop : popHead (List.range' i (W + 1)) = (i, List.range' (i + 1) W) := by
      rw [List.range'_succ]; rfl
    have hadd : i + 1 + j = i + (j + 1) := by omega
    rw [List.range'_succ]
    simp only [std_steady, if_neg Bool.false_ne_true, hq, hpop]
    simp [ih (i + 1), List.flatMap_cons, hadd]

theorem std_cool_run :
    ∀ (l : List ℕ) (i : ℕ), std_cool l (List.range' i l.length)
        (List.range' i l.length) =
      ((List.range' i l.length).flatMap fun b =>
          [Ev.RecvBwd false, Ev.BComp b, Ev.SendBwd], [], []) := by
  intro l
  induction l with
  | nil => intro i; simp [std_cool]
  | cons hd tl ih =>
    intro i
    have hpop : popHead (List.range' i (tl.length + 1)) =
        (i, List.range' (i + 1) tl.length) := by
      rw [List.range'_succ]; rfl
    simp only [List.length_cons, std_cool, hpop]
    rw [List.range'_succ]
    simp [ih (i + 1), List.flatMap_cons]

theorem std_num_warmup_le (S r m : ℕ) (g : Bool) : std_num_warmup S r m g ≤ m := by
  simp only [std_num_warmup]
  split
  · omega
  · split <;> omega

/-- Full shape of a training-mode (not forward-only) run of the standard
scheduler: warm-up block, stall barrier / initial receive, steady-state
block, cool-down block, with both queues drained. -/
theorem std_run (S r m : ℕ) (gpipe : Bool) :
    forward_backward_pipelining S r m false gpipe =
      ((List.range (std_num_warmup S r m gpipe)).flatMap
          (std_warm_body gpipe m (std_num_warmup S r m gpipe))
        ++ ((if std_num_warmup S r m gpipe = 0 ∧ gpipe = false then [Ev.Barrier] else [])
            ++ (if 0 < m - std_num_warmup S r m gpipe then [Ev.RecvFwd false] else []))
        ++ ((List.range' 0 (m - std_num_warmup S r m gpipe)).flatMap fun t =>
              [Ev.FComp (std_num_warmup S r m gpipe + t), Ev.SendFwdRecvBwd, Ev.BComp t]
                ++ (if t = m - std_num_warmup S r m gpipe - 1 then [Ev.SendBwd]
                    else [Ev.SendBwdRecvFwd]))
        ++ ((List.range' (m - std_num_warmup S r m gpipe)
                (std_num_warmup S r m gpipe)).flatMap fun b =>
              [Ev.RecvBwd false, Ev.BComp b, Ev.SendBwd]),
       [], []) := by
  have hrW : List.range (std_num_warmup S r m gpipe) =
      List.range' 0 (std_num_warmup S r m gpipe) := List.range_eq_range' _
  have hrR : List.range (m - std_num_warmup S r m gpipe) =
      List.range' 0 (m - std_num_warmup S r m gpipe) := List.range_eq_range' _
  have hc := std_cool_run (List.range' 0 (std_num_warmup S r m gpipe))
    (m - std_num_warmup S r m gpipe)
  rw [List.length_range'] at hc
  simp only [forward_backward_pipelining]
  rw [hrW, hrR, std_warm_eq]
  simp only [List.nil_append]
  rw [std_steady_run, Nat.zero_add, hc]
  simp [List.append_assoc, hrW]

/-! ### Label and event extraction over the standard scheduler trace -/

theorem fLabels_append (a b : List Ev) : fLabels (a ++ b) = fLabels a ++ fLabels b := by
  simp [fLabels]

theorem bLabels_append (a b : List Ev) : bLabels (a ++ b) = bLabels a ++ bLabels b := by
  simp [bLabels]

theorem gradSlotEvs_append (a b : List Ev) :
    gradSlotEvs (a ++ b) = gradSlotEvs a ++ gradSlotEvs b := by
  simp [gradSlotEvs]

theorem barrierEvs_append (a b : List Ev) :
    barrierEvs (a ++ b) = barrierEvs a ++ barrierEvs b := by
  simp [barrierEvs]

theorem fVers_append (a b : List Ev) : fVers (a ++ b) = fVers a ++ fVers b := by
  simp [fVers]

theorem bVers_append (a b : List Ev) : bVers (a ++ b) = bVers a ++ bVers b := by
  simp [bVers]

theorem mid_no_compute (P Q : Prop) [Decidable P] [Decidable Q] :
    fLabels ((if P then [Ev.Barrier] else []) ++ (if Q then [Ev.RecvFwd false] else [])) = []
    ∧ bLabels ((if P then [Ev.Barrier] else []) ++ (if Q then [Ev.RecvFwd false] else [])) = []
    ∧ gradSlotEvs ((if P then [Ev.Barrier] else [])
        ++ (if Q then [Ev.RecvFwd false] else [])) = [] := by
  refine ⟨?_, ?_, ?_⟩ <;> split_ifs <;> rfl

theorem warm_body_fLabels (g : Bool) (m W i : ℕ) :
    fLabels (std_warm_body g m W i) = [i] := by
  simp only [std_warm_body, fLabels_append]
  split <;> rfl

theorem warm_body_bLabels (g : Bool) (m W i : ℕ) :
    bLabels (std_warm_body g m W i) = [] := by
  simp only [std_warm_body, bLabels_append]
  split <;> rfl

theorem warm_body_gradSlot (g : Bool) (m W i : ℕ) :
    gradSlotEvs (std_warm_body g m W i) = [] := by
  simp only [std_warm_body, gradSlotEvs_append]
  split <;> rfl

theorem warm_body_barrier_gpipe (m W i : ℕ) :
    barrierEvs (std_warm_body true m W i) = [] := by
  simp only [std_warm_body, barrierEvs_append]
  rw [if_neg (by simp)]
  rfl

theorem warm_chunk_fLabels (g : Bool) (m W : ℕ) :
    ∀ l : List ℕ, fLabels (l.flatMap (std_warm_body g m W)) = l := by
  intro l
  induction l with
  | nil => rfl
  | cons a t ih =>
    rw [List.flatMap_cons, fLabels_append, warm_body_fLabels, ih]
    rfl

theorem warm_chunk_bLabels (g : Bool) (m W : ℕ) :
    ∀ l : List ℕ, bLabels (l.flatMap (std_warm_body g m W)) = [] := by
  intro l
  induction l with
  | nil => rfl
  | cons a t ih => rw [List.flatMap_cons, bLabels_append, warm_body_bLabels, ih]; rfl

theorem warm_chunk_gradSlot (g : Bool) (m W : ℕ) :
    ∀ l : List ℕ, gradSlotEvs (l.flatMap (std_warm_body g m W)) = [] := by
  intro l
  induction l with
  | nil => rfl
  | cons a t ih => rw [List.flatMap_cons, gradSlotEvs_append, warm_body_gradSlot, ih]; rfl

theorem warm_chunk_barrier_gpipe (m W : ℕ) :
    ∀ l : List ℕ, barrierEvs (l.flatMap (std_warm_body true m W)) = [] := by
  intro l
  induction l with
  | nil => rfl
  | cons a t ih =>
    rw [List.flatMap_cons, barrierEvs_append, warm_body_barrier_gpipe, ih]; rfl

theorem steady_chunk_fLabels (W R : ℕ) :
    ∀ l : List ℕ, fLabels (l.flatMap fun t =>
        [Ev.FComp (W + t), Ev.SendFwdRecvBwd, Ev.BComp t]
          ++ (if t = R - 1 then [Ev.SendBwd] else [Ev.SendBwdRecvFwd]))
      = l.map (W + ·) := by
  intro l
  induction l with
  | nil => rfl
  | cons a t ih =>
    rw [List.flatMap_cons, fLabels_append, List.map_cons, ← ih]
    have h1 : fLabels ([Ev.FComp (W + a), Ev.SendFwdRecvBwd, Ev.BComp a]
        ++ (if a = R - 1 then [Ev.SendBwd] else [Ev.SendBwdRecvFwd])) = [W + a] := by
      rw [fLabels_append]; split <;> rfl
    rw [h1]
    rfl

theorem steady_chunk_bLabels (W R : ℕ) :
    ∀ l : List ℕ, bLabels (l.flatMap fun t =>
        [Ev.FComp (W + t), Ev.SendFwdRecvBwd, Ev.BComp t]
          ++ (if t = R - 1 then [Ev.SendBwd] else [Ev.SendBwdRecvFwd]))
      = l := by
  intro l
  induction l with
  | nil => rfl
  | cons a t ih =>
    rw [List.flatMap_cons, bLabels_append, ih]
    have h1 : bLabels ([Ev.FComp (W + a), Ev.SendFwdRecvBwd, Ev.BComp a]
        ++ (if a = R - 1 then [Ev.SendBwd] else [Ev.SendBwdRecvFwd])) = [a] := by
      rw [bLabels_append]; split <;> rfl
    rw [h1]
    rfl

theorem steady_chunk_barrier (W R : ℕ) :
    ∀ l : List ℕ, barrierEvs (l.flatMap fun t =>
        [Ev.FComp (W + t), Ev.SendFwdRecvBwd, Ev.BComp t]
          ++ (if t = R - 1 then [Ev.SendBwd] else [Ev.SendBwdRecvFwd]))
      = [] := by
  intro l
  induction l with
  | nil => rfl
  | cons a t ih =>
    rw [List.flatMap_cons, barrierEvs_append, ih]
    have h1 : barrierEvs ([Ev.FComp (W + a), Ev.SendFwdRecvBwd, Ev.BComp a]
        ++ (if a = R - 1 then [Ev.SendBwd] else [Ev.SendBwdRecvFwd])) = [] := by
      rw [barrierEvs_append]; split <;> rfl
    rw [h1]
    rfl

theorem cool_chunk_fLabels :
    ∀ l : List ℕ, fLabels (l.flatMap fun b =>
        [Ev.RecvBwd false, Ev.BComp b, Ev.SendBwd]) = [] := by
  intro l
  induction l with
  | nil => rfl
  | cons a t ih => rw [List.flatMap_cons, fLabels_append, ih]; rfl

theorem cool_chunk_bLabels :
    ∀ l : List ℕ, bLabels (l.flatMap fun b =>
        [Ev.RecvBwd false, Ev.BComp b, Ev.SendBwd]) = l := by
  intro l
  induction l with
  | nil => rfl
  | cons a t ih => rw [List.flatMap_cons, bLabels_append, ih]; rfl

theorem cool_chunk_barrier :
    ∀ l : List ℕ, barrierEvs (l.flatMap fun b =>
        [Ev.RecvBwd false, Ev.BComp b, Ev.SendBwd]) = [] := by
  intro l
  induction l with
  | nil => rfl
  | cons a t ih => rw [List.flatMap_cons, barrierEvs_append, ih]; rfl

theorem steadyfo_chunk_fLabels (W R : ℕ) :
    ∀ l : List ℕ, fLabels (l.flatMap fun t => [Ev.FComp (W + t), Ev.SendFwd]
        ++ (if t = R - 1 then [] else [Ev.RecvFwd false])) = l.map (W + ·) := by
  intro l
  induction l with
  | nil => rfl
  | cons a t ih =>
    rw [List.flatMap_cons, fLabels_append, List.map_cons, ← ih]
    have h1 : fLabels ([Ev.FComp (W + a), Ev.SendFwd]
        ++ (if a = R - 1 then [] else [Ev.RecvFwd false])) = [W + a] := by
      rw [fLabels_append]; split <;> rfl
    rw [h1]
    rfl

theorem steadyfo_chunk_bLabels (W R : ℕ) :
    ∀ l : List ℕ, bLabels (l.flatMap fun t => [Ev.FComp (W + t), Ev.SendFwd]
        ++ (if t = R - 1 then [] else [Ev.RecvFwd false])) = [] := by
  intro l
  induction l with
  | nil => rfl
  | cons a t ih =>
    rw [List.flatMap_cons, bLabels_append, ih]
    have h1 : bLabels ([Ev.FComp (W + a), Ev.SendFwd]
        ++ (if a = R - 1 then [] else [Ev.RecvFwd false])) = [] := by
      rw [bLabels_append]; split <;> rfl
    rw [h1]
    rfl

theorem steadyfo_chunk_gradSlot (W R : ℕ) :
    ∀ l : List ℕ, gradSlotEvs (l.flatMap fun t => [Ev.FComp (W + t), Ev.SendFwd]
        ++ (if t = R - 1 then [] else [Ev.RecvFwd false])) = [] := by
  intro l
  induction l with
  | nil => rfl
  | cons a t ih =>
    rw [List.flatMap_cons, gradSlotEvs_append, ih]
    have h1 : gradSlotEvs ([Ev.FComp (W + a), Ev.SendFwd]
        ++ (if a = R - 1 then [] else [Ev.RecvFwd false])) = [] := by
      rw [gradSlotEvs_append]; split <;> rfl
    rw [h1]
    rfl

theorem steadyfo_chunk_barrier (W R : ℕ) :
    ∀ l : List ℕ, barrierEvs (l.flatMap fun t => [Ev.FComp (W + t), Ev.SendFwd]
        ++ (if t = R - 1 then [] else [Ev.RecvFwd false])) = [] := by
  intro l
  induction l with
  | nil => rfl
  | cons a t ih =>
    rw [List.flatMap_cons, barrierEvs_append, ih]
    have h1 : barrierEvs ([Ev.FComp (W + a), Ev.SendFwd]
        ++ (if a = R - 1 then [] else [Ev.RecvFwd false])) = [] := by
      rw [barrierEvs_append]; split <;> rfl
    rw [h1]
    rfl

/-- Events of a forward-only run of the standard scheduler. -/
theorem std_run_fo (S r m : ℕ) (gpipe : Bool) :
    (forward_backward_pipelining S r m true gpipe).1 =
      (List.range (std_num_warmup S r m gpipe)).flatMap
          (std_warm_body gpipe m (std_num_warmup S r m gpipe))
        ++ ((if std_num_warmup S r m gpipe = 0 ∧ gpipe = false then [Ev.Barrier] else [])
            ++ (if 0 < m - std_num_warmup S r m gpipe then [Ev.RecvFwd false] else []))
        ++ ((List.range (m - std_num_warmup S r m gpipe)).flatMap fun t =>
              [Ev.FComp (std_num_warmup S r m gpipe + t), Ev.SendFwd]
                ++ (if t = m - std_num_warmup S r m gpipe - 1 then []
                    else [Ev.RecvFwd false])) := by
  simp only [forward_backward_pipelining]
  rw [std_warm_eq]
  simp [std_steady_fo_events, List.append_assoc]

/-- In a training-mode run, the forward labels are 0 .. m-1 in order. -/
theorem std_fLabels_eq (S r m : ℕ) (gpipe : Bool) :
    fLabels (forward_backward_pipelining S r m false gpipe).1 = List.range m := by
  have hW := std_num_warmup_le S r m gpipe
  rw [std_run]
  rw [fLabels_append, fLabels_append, fLabels_append]
  rw [warm_chunk_fLabels, steady_chunk_fLabels, cool_chunk_fLabels,
    (mid_no_compute _ _).1, List.range_eq_range']
  rw [List.map_add_range']
  have h2 := List.range'_append_1 0 (std_num_warmup S r m gpipe)
    (m - std_num_warmup S r m gpipe)
  rw [Nat.zero_add] at h2
  simp only [List.append_nil, Nat.add_zero]
  rw [h2]
  have h1 : m - std_num_warmup S r m gpipe + std_num_warmup S r m gpipe = m := by omega
  rw [h1, ← List.range_eq_range']

/-- In a training-mode run, the backward labels are 0 .. m-1 in order: the
backwards consume the activations in exactly production order. -/
theorem std_bLabels_eq (S r m : ℕ) (gpipe : Bool) :
    bLabels (forward_backward_pipelining S r m false gpipe).1 = List.range m := by
  have hW := std_num_warmup_le S r m gpipe
  rw [std_run]
  rw [bLabels_append, bLabels_append, bLabels_append]
  rw [warm_chunk_bLabels, steady_chunk_bLabels, cool_chunk_bLabels,
    (mid_no_compute _ _).2.1]
  have h2 := List.range'_append_1 0 (m - std_num_warmup S r m gpipe)
    (std_num_warmup S r m gpipe)
  rw [Nat.zero_add] at h2
  simp only [List.nil_append]
  rw [h2]
  have h1 : std_num_warmup S r m gpipe + (m - std_num_warmup S r m gpipe) = m := by
    omega
  rw [h1, ← List.range_eq_range']

/-- In a forward-only run, the forward labels are 0 .. m-1 and there are no
backward computes and no gradient-creating receives. -/
theorem std_fo_extraction (S r m : ℕ) (gpipe : Bool) :
    fLabels (forward_backward_pipelining S r m true gpipe).1 = List.range m
    ∧ bLabels (forward_backward_pipelining S r m true gpipe).1 = []
    ∧ gradSlotEvs (forward_backward_pipelining S r m true gpipe).1 = [] := by
  have hW := std_num_warmup_le S r m gpipe
  rw [std_run_fo]
  refine ⟨?_, ?_, ?_⟩
  · rw [fLabels_append, fLabels_append]
    rw [warm_chunk_fLabels, steadyfo_chunk_fLabels, (mid_no_compute _ _).1]
    rw [List.range_eq_range', List.range_eq_range', List.map_add_range']
    have h2 := List.range'_append_1 0 (std_num_warmup S r m gpipe)
      (m - std_num_warmup S r m gpipe)
    rw [Nat.zero_add] at h2
    simp only [List.append_nil, Nat.add_zero]
    rw [h2]
    have h1 : m - std_num_warmup S r m gpipe + std_num_warmup S r m gpipe = m := by
      omega
    rw [h1, ← List.range_eq_range']
  · rw [bLabels_append, bLabels_append]
    rw [warm_chunk_bLabels, steadyfo_chunk_bLabels, (mid_no_compute _ _).2.1]
    rfl
  · rw [gradSlotEvs_append, gradSlotEvs_append]
    rw [warm_chunk_gradSlot, steadyfo_chunk_gradSlot, (mid_no_compute _ _).2.2]
    rfl

/-! ### Claim theorems about the standard scheduler -/

/-- Claim C1: for every valid (world_size, rank, num_microbatches), the
standard 1F1B planner computes num_warmup = min(world_size - rank - 1,
num_microbatches), forced to 1 when num_microbatches = 1, and num_steady =
num_microbatches - num_warmup, so that num_warmup + num_steady =
num_microbatches. -/
theorem std_warmup_formula (S r m : ℕ) (hr : r < S) (hm : 1 ≤ m) :
    (m = 1 → std_num_warmup S r m false = 1)
    ∧ (¬ m = 1 → std_num_warmup S r m false = min (S - r - 1) m)
    ∧ std_num_remaining S r m false = m - std_num_warmup S r m false
    ∧ std_num_warmup S r m false + std_num_remaining S r m false = m := by
  have h := std_num_warmup_le S r m false
  refine ⟨?_, ?_, rfl, by simp only [std_num_remaining]; omega⟩
  · intro h1
    simp [std_num_warmup, h1]
  · intro h1
    simp [std_num_warmup, h1]

theorem std_warmup_formula_witness :
    (8 = 1 → std_num_warmup 4 1 8 false = 1)
    ∧ (¬ 8 = 1 → std_num_warmup 4 1 8 false = min (4 - 1 - 1) 8)
    ∧ std_num_remaining 4 1 8 false = 8 - std_num_warmup 4 1 8 false
    ∧ std_num_warmup 4 1 8 false + std_num_remaining 4 1 8 false = 8 :=
  std_warmup_formula 4 1 8 (by decide) (by decide)

/-- Claim C2: in one invocation of the standard 1F1B scheduler, the number
of forward computations equals num_microbatches; the number of backward
computations equals num_microbatches when forward_only is false and zero
when it is true, in which case no gradient slot is ever created (no
gradient-receiving channel call occurs). -/
theorem std_compute_counts (S r m : ℕ) (fo gpipe : Bool) (hr : r < S) :
    (fLabels (forward_backward_pipelining S r m fo gpipe).1).length = m
    ∧ (bLabels (forward_backward_pipelining S r m fo gpipe).1).length
        = (if fo then 0 else m)
    ∧ (fo = true → gradSlotEvs (forward_backward_pipelining S r m fo gpipe).1 = []) := by
  cases fo with
  | false =>
    rw [std_fLabels_eq, std_bLabels_eq]
    simp
  | true =>
    have h := std_fo_extraction S r m gpipe
    rw [h.1, h.2.1]
    simp [h.2.2]

theorem std_compute_counts_witness :
    (fLabels (forward_backward_pipelining 4 1 8 false false).1).length = 8
    ∧ (bLabels (forward_backward_pipelining 4 1 8 false false).1).length
        = (if false then 0 else 8)
    ∧ (false = true → gradSlotEvs (forward_backward_pipelining 4 1 8 false false).1 = []) :=
  std_compute_counts 4 1 8 false false (by decide)

/-- Claim C9 counterexample: the code performs no precondition validation.
At num_microbatches = 0 (which the claim says must fail immediately), the
standard scheduler completes normally, computing the degenerate plan
num_warmup = 0, num_steady = 0 and issuing only the stall barrier. -/
theorem planner_no_validation_cex :
    forward_backward_pipelining 2 0 0 false false = ([Ev.Barrier], [], [])
    ∧ std_num_warmup 2 0 0 false = 0
    ∧ std_num_remaining 2 0 0 false = 0 := by
  refine ⟨?_, rfl, rfl⟩
  rfl

/-- Claim C9 (amended): the schedule planning step performs no validation of
(world_size, rank, num_microbatches); for num_microbatches = 0 it proceeds,
computing num_warmup = 0 and num_steady = 0, and the scheduler runs zero
forward and zero backward computations instead of failing. -/
theorem planner_no_validation_amended (S r : ℕ) (fo gpipe : Bool) (hr : r < S) :
    std_num_warmup S r 0 gpipe = 0
    ∧ std_num_remaining S r 0 gpipe = 0
    ∧ fLabels (forward_backward_pipelining S r 0 fo gpipe).1 = []
    ∧ bLabels (forward_backward_pipelining S r 0 fo gpipe).1 = [] := by
  have hw : std_num_warmup S r 0 gpipe = 0 := by
    have := std_num_warmup_le S r 0 gpipe
    omega
  refine ⟨hw, by simp [std_num_remaining, hw], ?_, ?_⟩
  · cases fo with
    | false => rw [std_fLabels_eq]; rfl
    | true => rw [(std_fo_extraction S r 0 gpipe).1]; rfl
  · cases fo with
    | false => rw [std_bLabels_eq]; rfl
    | true => rw [(std_fo_extraction S r 0 gpipe).2.1]

theorem planner_no_validation_amended_witness :
    std_num_warmup 2 0 0 false = 0
    ∧ std_num_remaining 2 0 0 false = 0
    ∧ fLabels (forward_backward_pipelining 2 0 0 false false).1 = []
    ∧ bLabels (forward_backward_pipelining 2 0 0 false false).1 = [] :=
  planner_no_validation_amended 2 0 false false (by decide)

/-- Claim C10: when the gpipe configuration flag is set, every micro-batch
is scheduled in the warm-up phase (num_warmup = num_microbatches,
num_steady = 0) regardless of rank, and the forward-pipeline-stall barrier
is never issued. -/
theorem gpipe_mode_no_barrier (S r m : ℕ) (fo : Bool) :
    std_num_warmup S r m true = m
    ∧ std_num_remaining S r m true = 0
    ∧ barrierEvs (forward_backward_pipelining S r m fo true).1 = [] := by
  have hw : std_num_warmup S r m true = m := by simp [std_num_warmup]
  refine ⟨hw, by simp [std_num_remaining, hw], ?_⟩
  cases fo with
  | false =>
    rw [std_run]
    rw [barrierEvs_append, barrierEvs_append, barrierEvs_append]
    rw [warm_chunk_barrier_gpipe, steady_chunk_barrier, cool_chunk_barrier]
    have hmid : barrierEvs ((if std_num_warmup S r m true = 0 ∧ true = false
          then [Ev.Barrier] else [])
        ++ (if 0 < m - std_num_warmup S r m true then [Ev.RecvFwd false] else []))
        = [] := by
      rw [if_neg (by simp), barrierEvs_append]
      split <;> rfl
    rw [hmid]
    rfl
  | true =>
    rw [std_run_fo]
    rw [barrierEvs_append, barrierEvs_append]
    rw [warm_chunk_barrier_gpipe, steadyfo_chunk_barrier]
    have hmid : barrierEvs ((if std_num_warmup S r m true = 0 ∧ true = false
          then [Ev.Barrier] else [])
        ++ (if 0 < m - std_num_warmup S r m true then [Ev.RecvFwd false] else []))
        = [] := by
      rw [if_neg (by simp), barrierEvs_append]
      split <;> rfl
    rw [hmid]
    rfl

/-! ### Chunk selection arithmetic -/

/-- Claim C8: for every step k, the forward chunk is
(k mod (world_size * C)) div world_size and the backward chunk is
C - 1 - that value. -/
theorem chunk_id_formula (S C k : ℕ) :
    get_model_chunk_id S C (k : ℤ) true = (((k % (S * C)) / S : ℕ) : ℤ)
    ∧ get_model_chunk_id S C (k : ℤ) false
        = (C : ℤ) - 1 - (((k % (S * C)) / S : ℕ) : ℤ)
    ∧ chunkF S C k = (k % (S * C)) / S := by
  refine ⟨?_, ?_, rfl⟩
  · simp only [get_model_chunk_id, if_pos]
    push_cast
    ring
  · simp only [get_model_chunk_id, if_neg]
    push_cast
    ring

/-- Moving one window position of world_size steps forward lands on chunk 0
exactly when the current position is on the last chunk. -/
theorem chunk_window_shift (S C : ℕ) (hS : 1 ≤ S) (hC : 1 ≤ C) (y : ℤ) :
    ((y + S) % ((S : ℤ) * C)) / S = 0 ↔ (y % ((S : ℤ) * C)) / S = (C : ℤ) - 1 := by
  have hS' : (0 : ℤ) < S := by exact_mod_cast hS
  have hC' : (1 : ℤ) ≤ C := by exact_mod_cast hC
  have hM0 : (0 : ℤ) < (S : ℤ) * C := by positivity
  have hSM : (S : ℤ) ≤ (S : ℤ) * C := by nlinarith
  have hp0 : 0 ≤ y % ((S : ℤ) * C) := Int.emod_nonneg y (ne_of_gt hM0)
  have hpM : y % ((S : ℤ) * C) < (S : ℤ) * C := Int.emod_lt_of_pos y hM0
  have key : (y + S) % ((S : ℤ) * C) = (y % ((S : ℤ) * C) + S) % ((S : ℤ) * C) := by
    have hy : y + (S : ℤ) = y % ((S : ℤ) * C) + S + ((S : ℤ) * C) * (y / ((S : ℤ) * C)) := by
      have h := Int.ediv_add_emod y ((S : ℤ) * C)
      linarith
    rw [hy, Int.add_mul_emod_self_left]
  rw [key]
  by_cases hc : y % ((S : ℤ) * C) + S < (S : ℤ) * C
  · have h1 : (y % ((S : ℤ) * C) + S) % ((S : ℤ) * C) = y % ((S : ℤ) * C) + S :=
      Int.emod_eq_of_lt (by omega) hc
    have h2 : (y % ((S : ℤ) * C) + (S : ℤ)) / S = y % ((S : ℤ) * C) / S + 1 := by
      have h := Int.add_mul_ediv_right (y % ((S : ℤ) * C)) 1 (ne_of_gt hS')
      simpa using h
    have h3 : 0 ≤ y % ((S : ℤ) * C) / S := Int.ediv_nonneg hp0 (le_of_lt hS')
    have h4 : y % ((S : ℤ) * C) / S < (C : ℤ) - 1 := by
      rw [Int.ediv_lt_iff_lt_mul hS']
      nlinarith
    rw [h1, h2]
    constructor
    · intro h; omega
    · intro h; omega
  · have h1 : (y % ((S : ℤ) * C) + S) % ((S : ℤ) * C)
        = y % ((S : ℤ) * C) + S - (S : ℤ) * C := by
      have hcast : (y % ((S : ℤ) * C) + S - (S : ℤ) * C) % ((S : ℤ) * C)
          = (y % ((S : ℤ) * C) + S) % ((S : ℤ) * C) :=
        Int.emod_sub_cancel (y % ((S : ℤ) * C) + S) ((S : ℤ) * C)
      rw [← hcast]
      exact Int.emod_eq_of_lt (by omega) (by omega)
    have h2 : (y % ((S : ℤ) * C) + S - (S : ℤ) * C) / S = 0 :=
      Int.ediv_eq_zero_of_lt (by omega) (by omega)
    have h5 : (C : ℤ) - 1 ≤ y % ((S : ℤ) * C) / S := by
      rw [Int.le_ediv_iff_mul_le hS']
      nlinarith
    have h6 : y % ((S : ℤ) * C) / S < (C : ℤ) := by
      rw [Int.ediv_lt_iff_lt_mul hS']
      nlinarith
    rw [h1, h2]
    constructor
    · intro _; omega
    · intro _; rfl

/-- Claim C6: in the interleaved steady state, the receive-forward flag is
false exactly when this is the final steady iteration or the rank is the
first physical stage and the chunk of the next forward step is chunk 0; the
receive-backward flag is false exactly when the rank is the last physical
stage and the chunk of the next backward step is chunk C - 1. -/
theorem chunk_id_fwd (S C : ℕ) (y : ℤ) :
    get_model_chunk_id S C y true = (y % ((S : ℤ) * C)) / S := by
  simp [get_model_chunk_id]

theorem chunk_id_bwd (S C : ℕ) (y : ℤ) :
    get_model_chunk_id S C y false = (C : ℤ) - (y % ((S : ℤ) * C)) / S - 1 := by
  simp [get_model_chunk_id]

theorem steady_recv_suppression (S r C W R k : ℕ) (hS : 1 ≤ S) (hC : 1 ≤ C) :
    ((steady_recv_prev_dest S r C W R k).1 = false
      ↔ ((r = 0 ∧ get_model_chunk_id S C (((W + k : ℕ) : ℤ) + 1) true = 0) ∨ k = R - 1))
    ∧ ((steady_recv_next_dest S r C k).1 = false
      ↔ (r = S - 1 ∧ get_model_chunk_id S C (((k : ℕ) : ℤ) + 1) false = (C : ℤ) - 1)) := by
  constructor
  · have hshift : (get_model_chunk_id S C (((W + k : ℕ) : ℤ) - ((S : ℤ) - 1)) true
          = (C : ℤ) - 1)
        ↔ (get_model_chunk_id S C (((W + k : ℕ) : ℤ) + 1) true = 0) := by
      have h := chunk_window_shift S C hS hC (((W + k : ℕ) : ℤ) - ((S : ℤ) - 1))
      rw [show ((W + k : ℕ) : ℤ) - ((S : ℤ) - 1) + (S : ℤ) = ((W + k : ℕ) : ℤ) + 1
        from by ring] at h
      rw [chunk_id_fwd, chunk_id_fwd]
      exact h.symm
    by_cases hr0 : r = 0
    · simp only [steady_recv_prev_dest, if_pos hr0, hr0]
      simp [hshift]
      tauto
    · simp only [steady_recv_prev_dest, if_neg hr0, hr0]
      simp
  · have hshift : (get_model_chunk_id S C (((k : ℕ) : ℤ) - ((S : ℤ) - 1)) false = 0)
        ↔ (get_model_chunk_id S C (((k : ℕ) : ℤ) + 1) false = (C : ℤ) - 1) := by
      have h := chunk_window_shift S C hS hC (((k : ℕ) : ℤ) - ((S : ℤ) - 1))
      rw [show ((k : ℕ) : ℤ) - ((S : ℤ) - 1) + (S : ℤ) = ((k : ℕ) : ℤ) + 1
        from by ring] at h
      rw [chunk_id_bwd, chunk_id_bwd]
      constructor
      · intro h0
        have h1 : (((k : ℕ) : ℤ) - ((S : ℤ) - 1)) % ((S : ℤ) * C) / S = (C : ℤ) - 1 := by
          omega
        have h2 := h.mpr h1
        omega
      · intro h0
        have h1 : ((((k : ℕ) : ℤ) + 1) % ((S : ℤ) * C)) / S = 0 := by omega
        have h2 := h.mp h1
        omega
    by_cases hrl : r = S - 1
    · simp only [steady_recv_next_dest, if_pos hrl, hrl]
      simp [hshift]
    · simp only [steady_recv_next_dest, if_neg hrl]
      simp [hrl]

/-! ### Interleaved planner -/

theorem int_num_warmup_le (S r m C : ℕ) (fo : Bool) :
    int_num_warmup S r m C fo ≤ m * C := by
  simp only [int_num_warmup]
  split
  · omega
  · split <;> omega

/-- Claim C3: for the interleaved scheduler, the total step count is
num_microbatches * C; in forward-only mode all steps are warm-up; otherwise
if num_microbatches = world_size all steps are warm-up and the all-warmup
regime is flagged; otherwise num_warmup = 2*(world_size - rank - 1) +
(C - 1)*world_size capped at the total; and num_steady = total - num_warmup. -/
theorem interleaved_planner (S r m C : ℕ) (fo : Bool) (hr : r < S) (hm : 1 ≤ m)
    (hC : 1 ≤ C) :
    (fo = true → int_num_warmup S r m C fo = m * C ∧ int_all_warmup S m fo = false)
    ∧ (fo = false → m = S →
        int_num_warmup S r m C fo = m * C ∧ int_all_warmup S m fo = true)
    ∧ (fo = false → ¬ m = S →
        int_num_warmup S r m C fo = min (2 * (S - r - 1) + (C - 1) * S) (m * C)
          ∧ int_all_warmup S m fo = false)
    ∧ int_num_warmup S r m C fo ≤ m * C
    ∧ int_num_remaining S r m C fo = m * C - int_num_warmup S r m C fo
    ∧ int_num_warmup S r m C fo + int_num_remaining S r m C fo = m * C := by
  have hle := int_num_warmup_le S r m C fo
  refine ⟨?_, ?_, ?_, hle, rfl, by simp only [int_num_remaining]; omega⟩
  · intro hfo
    subst hfo
    simp [int_num_warmup, int_all_warmup]
  · intro hfo hms
    subst hfo
    simp [int_num_warmup, int_all_warmup, hms]
  · intro hfo hms
    subst hfo
    simp [int_num_warmup, int_all_warmup, hms]

theorem interleaved_planner_witness :
    (false = true → int_num_warmup 4 1 8 2 false = 8 * 2
        ∧ int_all_warmup 4 8 false = false)
    ∧ (false = false → 8 = 4 →
        int_num_warmup 4 1 8 2 false = 8 * 2 ∧ int_all_warmup 4 8 false = true)
    ∧ (false = false → ¬ 8 = 4 →
        int_num_warmup 4 1 8 2 false = min (2 * (4 - 1 - 1) + (2 - 1) * 4) (8 * 2)
          ∧ int_all_warmup 4 8 false = false)
    ∧ int_num_warmup 4 1 8 2 false ≤ 8 * 2
    ∧ int_num_remaining 4 1 8 2 false = 8 * 2 - int_num_warmup 4 1 8 2 false
    ∧ int_num_warmup 4 1 8 2 false + int_num_remaining 4 1 8 2 false = 8 * 2 :=
  interleaved_planner 4 1 8 2 false (by decide) (by decide) (by decide)

/-! ### Queue bookkeeping lemmas for the interleaved scheduler -/

theorem getD_set_self {α : Type} (l : List α) (c : ℕ) (v d : α) (h : c < l.length) :
    (l.set c v).getD c d = v := by
  simp [List.getD_eq_getElem?_getD, List.getElem?_set_self h]

theorem getD_set_other {α : Type} (l : List α) (c c' : ℕ) (v d : α) (h : c ≠ c') :
    (l.set c v).getD c' d = l.getD c' d := by
  simp [List.getD_eq_getElem?_getD, List.getElem?_set_ne h]

theorem lt_length_of_getD_ne (l : List (List ℕ)) (c : ℕ)
    (h : l.getD c [] ≠ []) : c < l.length := by
  by_contra hc
  push_neg at hc
  rw [List.getD_eq_getElem?_getD, List.getElem?_eq_none hc] at h
  exact h rfl

/-- Total number of labels held across the per-chunk queues. -/
def sumLen (qs : List (List ℕ)) : ℕ := (qs.map List.length).sum

theorem sumLen_push (qs : List (List ℕ)) (c x : ℕ) (h : c < qs.length) :
    sumLen (qs.set c (qs.getD c [] ++ [x])) = sumLen qs + 1 := by
  induction qs generalizing c with
  | nil => simp at h
  | cons q t ih =>
    cases c with
    | zero =>
      simp [sumLen, List.getD_eq_getElem?_getD]
      omega
    | succ n =>
      have hn : n < t.length := by simpa using h
      have := ih n hn
      simp only [sumLen, List.getD_eq_getElem?_getD, List.getElem?_cons_succ,
        List.set, List.map_cons, List.sum_cons] at this ⊢
      omega

theorem sumLen_pop (qs : List (List ℕ)) (c x : ℕ) (rest : List ℕ)
    (h : qs.getD c [] = x :: rest) : sumLen (qs.set c rest) + 1 = sumLen qs := by
  induction qs generalizing c with
  | nil => simp [List.getD_eq_getElem?_getD] at h
  | cons q t ih =>
    cases c with
    | zero =>
      simp only [List.getD_eq_getElem?_getD, List.getElem?_cons_zero,
        Option.getD_some] at h
      subst h
      simp [sumLen]
      omega
    | succ n =>
      have := ih n (by simpa [List.getD_eq_getElem?_getD] using h)
      simp only [sumLen, List.set, List.map_cons, List.sum_cons] at this ⊢
      omega

/-- The per-chunk FIFO invariant: what each chunk's backwards have consumed,
followed by what still sits in the queue, is exactly what the chunk's
forwards produced, in order. -/
def QInv (st : IntState) : Prop :=
  ∀ c, st.consumed.getD c [] ++ st.outQ.getD c [] = st.produced.getD c []

/-- The activation-queue related lists all have one entry per chunk. -/
def lenOk (C : ℕ) (st : IntState) : Prop :=
  st.outQ.length = C ∧ st.produced.length = C ∧ st.consumed.length = C

theorem bumpIn_fields {st st' : IntState} {c : ℕ} (h : bumpIn st c = some st') :
    st'.outQ = st.outQ ∧ st'.produced = st.produced ∧ st'.consumed = st.consumed := by
  simp only [bumpIn] at h
  split at h
  · simp only [Option.some.injEq] at h
    subst h
    exact ⟨rfl, rfl, rfl⟩
  · cases h

theorem dropIn_fields {st st' : IntState} {c : ℕ} (h : dropIn st c = some st') :
    st'.outQ = st.outQ ∧ st'.produced = st.produced ∧ st'.consumed = st.consumed := by
  simp only [dropIn] at h
  split at h
  · simp only [Option.some.injEq] at h
    subst h
    exact ⟨rfl, rfl, rfl⟩
  · cases h

theorem bumpGrad_fields {st st' : IntState} {c : ℕ} (h : bumpGrad st c = some st') :
    st'.outQ = st.outQ ∧ st'.produced = st.produced ∧ st'.consumed = st.consumed := by
  simp only [bumpGrad] at h
  split at h
  · simp only [Option.some.injEq] at h
    subst h
    exact ⟨rfl, rfl, rfl⟩
  · cases h

theorem dropGrad_fields {st st' : IntState} {c : ℕ} (h : dropGrad st c = some st') :
    st'.outQ = st.outQ ∧ st'.produced = st.produced ∧ st'.consumed = st.consumed := by
  simp only [dropGrad] at h
  split at h
  · simp only [Option.some.injEq] at h
    subst h
    exact ⟨rfl, rfl, rfl⟩
  · cases h

theorem pushOut_props {st st' : IntState} {c lab : ℕ}
    (h : pushOut st c lab = some st') (hq : QInv st) :
    QInv st' ∧ sumLen st'.produced = sumLen st.produced + 1
      ∧ st'.consumed = st.consumed
      ∧ st'.outQ.length = st.outQ.length
      ∧ st'.produced.length = st.produced.length := by
  simp only [pushOut] at h
  split at h
  case isTrue hc =>
    simp only [Option.some.injEq] at h
    subst h
    refine ⟨?_, sumLen_push _ _ _ hc.2, rfl, by simp, by simp⟩
    intro c'
    by_cases hcc : c = c'
    · subst hcc
      simp only
      rw [getD_set_self _ _ _ _ hc.1, getD_set_self _ _ _ _ hc.2,
        ← List.append_assoc, hq c]
    · simp only
      rw [getD_set_other _ _ _ _ _ hcc, getD_set_other _ _ _ _ _ hcc]
      exact hq c'
  case isFalse => cases h

theorem popOut_props {st st' : IntState} {c x : ℕ}
    (h : popOut st c = some (x, st')) (hq : QInv st) :
    QInv st' ∧ sumLen st'.consumed = sumLen st.consumed + 1
      ∧ st'.produced = st.produced
      ∧ st'.outQ.length = st.outQ.length
      ∧ st'.consumed.length = st.consumed.length := by
  simp only [popOut] at h
  split at h
  case isTrue hc =>
    cases hout : st.outQ.getD c [] with
    | nil => rw [hout] at h; cases h
    | cons a rest =>
      rw [hout] at h
      simp only [Option.some.injEq, Prod.mk.injEq] at h
      obtain ⟨hax, hst⟩ := h
      subst hax
      subst hst
      have hco : c < st.outQ.length :=
        lt_length_of_getD_ne _ _ (by rw [hout]; simp)
      refine ⟨?_, sumLen_push _ _ _ hc, rfl, by simp, by simp⟩
      intro c'
      by_cases hcc : c = c'
      · subst hcc
        simp only
        rw [getD_set_self _ _ _ _ hc, getD_set_self _ _ _ _ hco,
          List.append_assoc]
        have hsing : [a] ++ rest = a :: rest := rfl
        rw [hsing, ← hout, hq c]
      · simp only
        rw [getD_set_other _ _ _ _ _ hcc, getD_set_other _ _ _ _ _ hcc]
        exact hq c'
  case isFalse => cases h

theorem QInv_of_fields {st st' : IntState} (hq : QInv st) (h1 : st'.outQ = st.outQ)
    (h2 : st'.produced = st.produced) (h3 : st'.consumed = st.consumed) : QInv st' := by
  intro c
  rw [h1, h2, h3]
  exact hq c

theorem lenOk_of_fields {Cn : ℕ} {st st' : IntState} (hl : lenOk Cn st)
    (h1 : st'.outQ = st.outQ) (h2 : st'.produced = st.produced)
    (h3 : st'.consumed = st.consumed) : lenOk Cn st' := by
  refine ⟨?_, ?_, ?_⟩
  · rw [h1]; exact hl.1
  · rw [h2]; exact hl.2.1
  · rw [h3]; exact hl.2.2

theorem int_fwd_helper_props {S r C k : ℕ} {st : IntState} {ev : List Ev}
    {st' : IntState} {Cn : ℕ}
    (h : int_fwd_helper S r C k st = some (ev, st')) (hq : QInv st) (hl : lenOk Cn st) :
    QInv st' ∧ lenOk Cn st'
      ∧ sumLen st'.produced = sumLen st.produced + 1
      ∧ st'.consumed = st.consumed
      ∧ (fLabels ev).length = 1 ∧ (bLabels ev).length = 0 := by
  simp only [int_fwd_helper] at h
  obtain ⟨st1, h1, h2⟩ := Option.bind_eq_some.mp h
  have hf1 : st1.outQ = st.outQ ∧ st1.produced = st.produced
      ∧ st1.consumed = st.consumed := by
    split at h1
    · exact bumpIn_fields h1
    · simp only [Option.some.injEq] at h1
      subst h1
      exact ⟨rfl, rfl, rfl⟩
  have hq1 : QInv st1 := QInv_of_fields hq hf1.1 hf1.2.1 hf1.2.2
  have hl1 : lenOk Cn st1 := lenOk_of_fields hl hf1.1 hf1.2.1 hf1.2.2
  split at h2
  case isTrue =>
    obtain ⟨st2, hp, he⟩ := Option.map_eq_some'.mp h2
    rw [Prod.mk.injEq] at he
    obtain ⟨hev, hst⟩ := he
    subst hev
    subst hst
    obtain ⟨hq2, hs2, hc2, hlo, hlp⟩ := pushOut_props hp hq1
    refine ⟨hq2, ⟨?_, ?_, ?_⟩, ?_, ?_, rfl, rfl⟩
    · rw [hlo, hf1.1]; exact hl.1
    · rw [hlp, hf1.2.1]; exact hl.2.1
    · rw [hc2, hf1.2.2]; exact hl.2.2
    · rw [hs2, hf1.2.1]
    · rw [hc2, hf1.2.2]
  case isFalse => cases h2

theorem int_bwd_helper_props {S r C k : ℕ} {st : IntState} {ev : List Ev}
    {st' : IntState} {Cn : ℕ}
    (h : int_bwd_helper S r C k st = some (ev, st')) (hq : QInv st) (hl : lenOk Cn st) :
    QInv st' ∧ lenOk Cn st'
      ∧ st'.produced = st.produced
      ∧ sumLen st'.consumed = sumLen st.consumed + 1
      ∧ (fLabels ev).length = 0 ∧ (bLabels ev).length = 1 := by
  simp only [int_bwd_helper] at h
  obtain ⟨st1, h1, h2⟩ := Option.bind_eq_some.mp h
  have hf1 : st1.outQ = st.outQ ∧ st1.produced = st.produced
      ∧ st1.consumed = st.consumed := by
    split at h1
    · exact bumpGrad_fields h1
    · simp only [Option.some.injEq] at h1
      subst h1
      exact ⟨rfl, rfl, rfl⟩
  have hq1 : QInv st1 := QInv_of_fields hq hf1.1 hf1.2.1 hf1.2.2
  have hl1 : lenOk Cn st1 := lenOk_of_fields hl hf1.1 hf1.2.1 hf1.2.2
  obtain ⟨st2, hd1, h3⟩ := Option.bind_eq_some.mp h2
  have hf2 := dropIn_fields hd1
  have hq2 : QInv st2 := QInv_of_fields hq1 hf2.1 hf2.2.1 hf2.2.2
  have hl2 : lenOk Cn st2 := lenOk_of_fields hl1 hf2.1 hf2.2.1 hf2.2.2
  obtain ⟨p, hpop, h4⟩ := Option.bind_eq_some.mp h3
  have hppair : popOut st2 (C - 1 - chunkF S C k) = some (p.1, p.2) := by
    simpa using hpop
  obtain ⟨hq3, hs3, hprod3, hlo3, hlc3⟩ := popOut_props hppair hq2
  obtain ⟨st4, hd2, he⟩ := Option.map_eq_some'.mp h4
  have hf4 := dropGrad_fields hd2
  rw [Prod.mk.injEq] at he
  obtain ⟨hev, hst⟩ := he
  subst hev
  subst hst
  refine ⟨QInv_of_fields hq3 hf4.1 hf4.2.1 hf4.2.2, ?_, ?_, ?_, rfl, rfl⟩
  · refine ⟨?_, ?_, ?_⟩
    · rw [hf4.1, hlo3, hf2.1, hf1.1]; exact hl.1
    · rw [hf4.2.1, hprod3, hf2.2.1, hf1.2.1]; exact hl.2.1
    · rw [hf4.2.2, hlc3, hf2.2.2, hf1.2.2]; exact hl.2.2
  · rw [hf4.2.1, hprod3, hf2.2.1, hf1.2.1]
  · rw [hf4.2.2, hs3, hf2.2.2, hf1.2.2]

theorem int_warm_step_props {S r C N W : ℕ} {fo allW : Bool} {k : ℕ}
    {st : IntState} {ev : List Ev} {st' : IntState} {Cn : ℕ}
    (h : int_warm_step S r C N W fo allW k st = some (ev, st'))
    (hq : QInv st) (hl : lenOk Cn st) :
    (QInv st' ∧ lenOk Cn st')
      ∧ sumLen st'.produced = sumLen st.produced + 1
      ∧ sumLen st'.consumed = sumLen st.consumed + 0
      ∧ (fLabels ev).length = 1 ∧ (bLabels ev).length = 0 := by
  simp only [int_warm_step] at h
  obtain ⟨q, h1, h2⟩ := Option.bind_eq_some.mp h
  have hqpair : int_fwd_helper S r C k st = some (q.1, q.2) := by simpa using h1
  obtain ⟨hq1, hl1, hs1, hc1, hfl1, hbl1⟩ := int_fwd_helper_props hqpair hq hl
  split at h2
  · obtain ⟨st2, hg, h3⟩ := Option.bind_eq_some.mp h2
    have hf2 := bumpGrad_fields hg
    obtain ⟨st3, hb, he⟩ := Option.map_eq_some'.mp h3
    have hf3 := bumpIn_fields hb
    rw [Prod.mk.injEq] at he
    obtain ⟨hev, hst⟩ := he
    subst hev
    subst hst
    refine ⟨⟨QInv_of_fields (QInv_of_fields hq1 hf2.1 hf2.2.1 hf2.2.2) hf3.1 hf3.2.1 hf3.2.2,
      lenOk_of_fields (lenOk_of_fields hl1 hf2.1 hf2.2.1 hf2.2.2) hf3.1 hf3.2.1 hf3.2.2⟩,
      ?_, ?_, ?_, ?_⟩
    · rw [hf3.2.1, hf2.2.1, hs1]
    · rw [hf3.2.2, hf2.2.2, hc1]
      omega
    · rw [fLabels_append, List.length_append, hfl1]
      rfl
    · rw [bLabels_append, List.length_append, hbl1]
      rfl
  · obtain ⟨st3, hb, he⟩ := Option.map_eq_some'.mp h2
    have hf3 := bumpIn_fields hb
    rw [Prod.mk.injEq] at he
    obtain ⟨hev, hst⟩ := he
    subst hev
    subst hst
    refine ⟨⟨QInv_of_fields hq1 hf3.1 hf3.2.1 hf3.2.2,
      lenOk_of_fields hl1 hf3.1 hf3.2.1 hf3.2.2⟩, ?_, ?_, ?_, ?_⟩
    · rw [hf3.2.1, hs1]
    · rw [hf3.2.2, hc1]
      omega
    · rw [fLabels_append, List.length_append, hfl1]
      rfl
    · rw [bLabels_append, List.length_append, hbl1]
      rfl

theorem int_steady_step_props {S r C W R : ℕ} {k : ℕ}
    {st : IntState} {ev : List Ev} {st' : IntState} {Cn : ℕ}
    (h : int_steady_step S r C W R k st = some (ev, st'))
    (hq : QInv st) (hl : lenOk Cn st) :
    (QInv st' ∧ lenOk Cn st')
      ∧ sumLen st'.produced = sumLen st.produced + 1
      ∧ sumLen st'.consumed = sumLen st.consumed + 1
      ∧ (fLabels ev).length = 1 ∧ (bLabels ev).length = 1 := by
  simp only [int_steady_step] at h
  obtain ⟨qf, h1, h2⟩ := Option.bind_eq_some.mp h
  have hqf : int_fwd_helper S r C (k + W) st = some (qf.1, qf.2) := by simpa using h1
  obtain ⟨hq1, hl1, hs1, hc1, hfl1, hbl1⟩ := int_fwd_helper_props hqf hq hl
  obtain ⟨qb, h3, h4⟩ := Option.bind_eq_some.mp h2
  have hqb : int_bwd_helper S r C k qf.2 = some (qb.1, qb.2) := by simpa using h3
  obtain ⟨hq2, hl2, hp2, hs2, hfl2, hbl2⟩ := int_bwd_helper_props hqb hq1 hl1
  obtain ⟨st3, h5, h6⟩ := Option.bind_eq_some.mp h4
  have hf3 : st3.outQ = qb.2.outQ ∧ st3.produced = qb.2.produced
      ∧ st3.consumed = qb.2.consumed := by
    split at h5
    · exact bumpIn_fields h5
    · simp only [Option.some.injEq] at h5
      subst h5
      exact ⟨rfl, rfl, rfl⟩
  obtain ⟨st4, h7, he⟩ := Option.map_eq_some'.mp h6
  have hf4 : st4.outQ = st3.outQ ∧ st4.produced = st3.produced
      ∧ st4.consumed = st3.consumed := by
    split at h7
    · exact bumpGrad_fields h7
    · simp only [Option.some.injEq] at h7
      subst h7
      exact ⟨rfl, rfl, rfl⟩
  rw [Prod.mk.injEq] at he
  obtain ⟨hev, hst⟩ := he
  subst hev
  subst hst
  refine ⟨⟨QInv_of_fields (QInv_of_fields hq2 hf3.1 hf3.2.1 hf3.2.2) hf4.1 hf4.2.1 hf4.2.2,
    lenOk_of_fields (lenOk_of_fields hl2 hf3.1 hf3.2.1 hf3.2.2) hf4.1 hf4.2.1 hf4.2.2⟩,
    ?_, ?_, ?_, ?_⟩
  · rw [hf4.2.1, hf3.2.1, hp2, hs1]
  · rw [hf4.2.2, hf3.2.2, hs2, hc1]
  · rw [fLabels_append, List.length_append, fLabels_append, List.length_append,
      hfl1, hfl2]
    rfl
  · rw [bLabels_append, List.length_append, bLabels_append, List.length_append,
      hbl1, hbl2]
    rfl

theorem int_cool_step_props {S r C N : ℕ} {k : ℕ}
    {st : IntState} {ev : List Ev} {st' : IntState} {Cn : ℕ}
    (h : int_cool_step S r C N k st = some (ev, st'))
    (hq : QInv st) (hl : lenOk Cn st) :
    (QInv st' ∧ lenOk Cn st')
      ∧ sumLen st'.produced = sumLen st.produced + 0
      ∧ sumLen st'.consumed = sumLen st.consumed + 1
      ∧ (fLabels ev).length = 0 ∧ (bLabels ev).length = 1 := by
  simp only [int_cool_step] at h
  obtain ⟨qb, h1, h2⟩ := Option.bind_eq_some.mp h
  have hqb : int_bwd_helper S r C k st = some (qb.1, qb.2) := by simpa using h1
  obtain ⟨hq1, hl1, hp1, hs1, hfl1, hbl1⟩ := int_bwd_helper_props hqb hq hl
  obtain ⟨st2, hg, he⟩ := Option.map_eq_some'.mp h2
  have hf2 := bumpGrad_fields hg
  rw [Prod.mk.injEq] at he
  obtain ⟨hev, hst⟩ := he
  subst hev
  subst hst
  refine ⟨⟨QInv_of_fields hq1 hf2.1 hf2.2.1 hf2.2.2,
    lenOk_of_fields hl1 hf2.1 hf2.2.1 hf2.2.2⟩, ?_, ?_, ?_, ?_⟩
  · rw [hf2.2.1, hp1]
    omega
  · rw [hf2.2.2, hs1]
  · rw [fLabels_append, List.length_append, hfl1]
    rfl
  · rw [bLabels_append, List.length_append, hbl1]
    rfl

/-- Accumulate a per-step invariant and measures over a whole loop. -/
theorem runSteps_acc {σ : Type} (step : ℕ → σ → Option (List Ev × σ)) (P : σ → Prop)
    (f g : σ → ℕ) (a b : ℕ)
    (hstep : ∀ k st ev st', step k st = some (ev, st') → P st →
      P st' ∧ f st' = f st + a ∧ g st' = g st + b
        ∧ (fLabels ev).length = a ∧ (bLabels ev).length = b) :
    ∀ (l : List ℕ) (st : σ) (ev : List Ev) (st' : σ),
      runSteps step l st = some (ev, st') → P st →
      P st' ∧ f st' = f st + a * l.length ∧ g st' = g st + b * l.length
        ∧ (fLabels ev).length = a * l.length
        ∧ (bLabels ev).length = b * l.length := by
  intro l
  induction l with
  | nil =>
    intro st ev st' h hp
    simp only [runSteps, Option.some.injEq, Prod.mk.injEq] at h
    obtain ⟨hev, hst⟩ := h
    subst hev
    subst hst
    exact ⟨hp, by simp, by simp, by simp [fLabels], by simp [bLabels]⟩
  | cons k rest ih =>
    intro st ev st' h hp
    simp only [runSteps] at h
    obtain ⟨p, hp1, h2⟩ := Option.bind_eq_some.mp h
    obtain ⟨q, hq1, he⟩ := Option.map_eq_some'.mp h2
    rw [Prod.mk.injEq] at he
    obtain ⟨hev, hst⟩ := he
    subst hev
    subst hst
    obtain ⟨hp', hf1, hg1, hfl1, hbl1⟩ :=
      hstep k st p.1 p.2 (by simpa using hp1) hp
    obtain ⟨hp'', hf2, hg2, hfl2, hbl2⟩ := ih p.2 q.1 q.2 (by simpa using hq1) hp'
    have hma : a * (rest.length + 1) = a * rest.length + a := by
      rw [Nat.mul_succ]
    have hmb : b * (rest.length + 1) = b * rest.length + b := by
      rw [Nat.mul_succ]
    refine ⟨hp'', ?_, ?_, ?_, ?_⟩
    · rw [List.length_cons, hma]
      omega
    · rw [List.length_cons, hmb]
      omega
    · rw [fLabels_append, List.length_append, List.length_cons, hma]
      omega
    · rw [bLabels_append, List.length_append, List.length_cons, hmb]
      omega

theorem getD_replicate_nil (C c : ℕ) :
    (List.replicate C ([] : List ℕ)).getD c [] = [] := by
  induction C generalizing c with
  | zero => rfl
  | succ n ih =>
    cases c with
    | zero => rfl
    | succ d => simpa [List.replicate, List.getD_eq_getElem?_getD] using ih d

theorem sumLen_replicate_nil (C : ℕ) : sumLen (List.replicate C []) = 0 := by
  induction C with
  | zero => rfl
  | succ n ih => simpa [sumLen, List.replicate] using ih

/-- Aggregate facts about one whole run of the interleaved scheduler: the
per-chunk FIFO invariant holds at the end, the queue lists keep one entry
per chunk, every one of the m*C steps produced exactly one activation, and
(in training mode) every one of the m*C backwards consumed exactly one. -/
theorem int_run_props (S r m C : ℕ) (fo : Bool) (ev : List Ev) (st : IntState)
    (h : forward_backward_pipelining_with_interleaving S r m C fo = some (ev, st)) :
    QInv st ∧ lenOk C st ∧ sumLen st.produced = m * C
      ∧ sumLen st.consumed = (if fo = true then 0 else m * C)
      ∧ (fLabels ev).length = m * C
      ∧ (bLabels ev).length = (if fo = true then 0 else m * C) := by
  have hle := int_num_warmup_le S r m C fo
  simp only [forward_backward_pipelining_with_interleaving] at h
  obtain ⟨st1, hb1, h2⟩ := Option.bind_eq_some.mp h
  obtain ⟨pw, hw, h3⟩ := Option.bind_eq_some.mp h2
  obtain ⟨ps, hsrun, h4⟩ := Option.bind_eq_some.mp h3
  obtain ⟨pc, hcool, he⟩ := Option.map_eq_some'.mp h4
  rw [Prod.mk.injEq] at he
  obtain ⟨hev, hst⟩ := he
  subst hev
  subst hst
  have hf1 := bumpIn_fields hb1
  have hq1 : QInv st1 := by
    intro c
    rw [hf1.1, hf1.2.1, hf1.2.2]
    simp only [getD_replicate_nil]
    rfl
  have hl1 : lenOk C st1 := by
    refine ⟨?_, ?_, ?_⟩
    · rw [hf1.1]; exact List.length_replicate _ _
    · rw [hf1.2.1]; exact List.length_replicate _ _
    · rw [hf1.2.2]; exact List.length_replicate _ _
  have hsum1p : sumLen st1.produced = 0 := by
    rw [hf1.2.1]; exact sumLen_replicate_nil C
  have hsum1c : sumLen st1.consumed = 0 := by
    rw [hf1.2.2]; exact sumLen_replicate_nil C
  obtain ⟨⟨hq2, hl2⟩, hf2, hg2, hfl2, hbl2⟩ :=
    runSteps_acc _ (fun st => QInv st ∧ lenOk C st)
      (fun st => sumLen st.produced) (fun st => sumLen st.consumed) 1 0
      (fun k st ev st' hh hp => int_warm_step_props hh hp.1 hp.2)
      _ _ _ _ hw ⟨hq1, hl1⟩
  obtain ⟨⟨hq3, hl3⟩, hf3, hg3, hfl3, hbl3⟩ :=
    runSteps_acc _ (fun st => QInv st ∧ lenOk C st)
      (fun st => sumLen st.produced) (fun st => sumLen st.consumed) 1 1
      (fun k st ev st' hh hp => int_steady_step_props hh hp.1 hp.2)
      _ _ _ _ hsrun ⟨hq2, hl2⟩
  rw [List.length_range] at hfl2 hbl2 hf2 hg2
  rw [List.length_range] at hfl3 hbl3 hf3 hg3
  have hinitF : (fLabels [Ev.SetVChunk 0, Ev.RecvFwd true]).length = 0 := rfl
  have hinitB : (bLabels [Ev.SetVChunk 0, Ev.RecvFwd true]).length = 0 := rfl
  cases fo with
  | true =>
    rw [if_pos rfl] at hcool
    simp only [Option.some.injEq] at hcool
    have hpcE : pc.1 = [] := by rw [← hcool]
    have hpcS : pc.2 = ps.2 := by rw [← hcool]
    have hWfo : int_num_warmup S r m C true = m * C := by
      simp [int_num_warmup]
    rw [hWfo] at hf2 hg2 hfl2 hbl2 hf3 hg3 hfl3 hbl3 hle
    have hite0 : (if (true = true) then (0 : ℕ) else m * C) = 0 := rfl
    rw [hpcS, hite0]
    refine ⟨hq3, hl3, by omega, by omega, ?_, ?_⟩
    · rw [fLabels_append, fLabels_append, fLabels_append, List.length_append,
        List.length_append, List.length_append, hpcE]
      have hnil : (fLabels ([] : List Ev)).length = 0 := rfl
      omega
    · rw [bLabels_append, bLabels_append, bLabels_append, List.length_append,
        List.length_append, List.length_append, hpcE]
      have hnil : (bLabels ([] : List Ev)).length = 0 := rfl
      omega
  | false =>
    rw [if_neg (by simp)] at hcool
    obtain ⟨pc0, hc0, h5⟩ := Option.bind_eq_some.mp hcool
    have hfields0 : pc0.2.outQ = ps.2.outQ ∧ pc0.2.produced = ps.2.produced
        ∧ pc0.2.consumed = ps.2.consumed ∧ (fLabels pc0.1).length = 0
        ∧ (bLabels pc0.1).length = 0 := by
      split at hc0
      · obtain ⟨stg, hg, he2⟩ := Option.map_eq_some'.mp hc0
        have hfg := bumpGrad_fields hg
        have he2E : pc0.1 = [Ev.RecvBwd true] := by rw [← he2]
        have he2S : pc0.2 = stg := by rw [← he2]
        rw [he2E, he2S]
        exact ⟨hfg.1, hfg.2.1, hfg.2.2, rfl, rfl⟩
      · simp only [Option.some.injEq] at hc0
        have hc0E : pc0.1 = [] := by rw [← hc0]
        have hc0S : pc0.2 = ps.2 := by rw [← hc0]
        rw [hc0E, hc0S]
        exact ⟨rfl, rfl, rfl, rfl, rfl⟩
    have hq0' : QInv pc0.2 :=
      QInv_of_fields hq3 hfields0.1 hfields0.2.1 hfields0.2.2.1
    have hl0' : lenOk C pc0.2 :=
      lenOk_of_fields hl3 hfields0.1 hfields0.2.1 hfields0.2.2.1
    obtain ⟨pcc, hrun2, he3⟩ := Option.map_eq_some'.mp h5
    have he3E : pc.1 = pc0.1 ++ pcc.1 := by rw [← he3]
    have he3S : pc.2 = pcc.2 := by rw [← he3]
    obtain ⟨⟨hq4, hl4⟩, hf4, hg4, hfl4, hbl4⟩ :=
      runSteps_acc _ (fun st => QInv st ∧ lenOk C st)
        (fun st => sumLen st.produced) (fun st => sumLen st.consumed) 0 1
        (fun k st ev st' hh hp => int_cool_step_props hh hp.1 hp.2)
        _ _ _ _ hrun2 ⟨hq0', hl0'⟩
    rw [List.length_range'] at hf4 hg4 hfl4 hbl4
    have hsp0 : sumLen pc0.2.produced = sumLen ps.2.produced :=
      congrArg sumLen hfields0.2.1
    have hsc0 : sumLen pc0.2.consumed = sumLen ps.2.consumed :=
      congrArg sumLen hfields0.2.2.1
    have hite1 : (if (false = true) then (0 : ℕ) else m * C) = m * C := rfl
    rw [he3S, hite1]
    refine ⟨hq4, hl4, by omega, by omega, ?_, ?_⟩
    · rw [fLabels_append, fLabels_append, fLabels_append, List.length_append,
        List.length_append, List.length_append, he3E, fLabels_append,
        List.length_append]
      omega
    · rw [bLabels_append, bLabels_append, bLabels_append, List.length_append,
        List.length_append, List.length_append, he3E, bLabels_append,
        List.length_append]
      omega

theorem sumLen_split :
    ∀ (A B P : List (List ℕ)), A.length = P.length → B.length = P.length →
      (∀ c, (A.getD c []).length + (B.getD c []).length = (P.getD c []).length) →
      sumLen A + sumLen B = sumLen P := by
  intro A
  induction A with
  | nil =>
    intro B P h1 h2 h3
    have hP : P = [] := by
      have := h1.symm
      simpa [List.length_eq_zero] using this
    subst hP
    have hB : B = [] := by simpa [List.length_eq_zero] using h2
    subst hB
    rfl
  | cons a A ih =>
    intro B P h1 h2 h3
    cases P with
    | nil => simp at h1
    | cons p P =>
      cases B with
      | nil => simp at h2
      | cons b B =>
        have hhead := h3 0
        simp only [List.getD_eq_getElem?_getD, List.getElem?_cons_zero,
          Option.getD_some] at hhead
        have htail : ∀ c, (A.getD c []).length + (B.getD c []).length
            = (P.getD c []).length := by
          intro c
          have := h3 (c + 1)
          simpa [List.getD_eq_getElem?_getD] using this
        have hrec := ih B P (by simpa using h1) (by simpa using h2) htail
        simp only [sumLen, List.map_cons, List.sum_cons] at hrec ⊢
        omega

theorem sumLen_eq_zero (A : List (List ℕ)) (h : sumLen A = 0) :
    ∀ c, A.getD c [] = [] := by
  induction A with
  | nil => intro c; rfl
  | cons a A ih =>
    intro c
    simp only [sumLen, List.map_cons, List.sum_cons] at h
    cases c with
    | zero =>
      have ha : a.length = 0 := by omega
      simpa [List.getD_eq_getElem?_getD, List.length_eq_zero] using ha
    | succ n =>
      have := ih (by simp [sumLen]; omega) n
      simpa [List.getD_eq_getElem?_getD] using this

/-- FIFO pairing for the interleaved scheduler: at the end of a successful
training-mode run, every chunk's consumed-label history equals its
produced-label history, and every chunk's activation queue is empty. -/
theorem int_fifo (S r m C : ℕ) (ev : List Ev) (st : IntState)
    (h : forward_backward_pipelining_with_interleaving S r m C false = some (ev, st)) :
    ∀ c, st.consumed.getD c [] = st.produced.getD c [] ∧ st.outQ.getD c [] = [] := by
  obtain ⟨hq, hl, hp, hc, _, _⟩ := int_run_props S r m C false ev st h
  have hc' : sumLen st.consumed = m * C := hc
  have hpoint : ∀ c, (st.consumed.getD c []).length + (st.outQ.getD c []).length
      = (st.produced.getD c []).length := by
    intro c
    rw [← hq c]
    simp
  have hsum := sumLen_split st.consumed st.outQ st.produced
    (by rw [hl.2.2, hl.2.1]) (by rw [hl.1, hl.2.1]) hpoint
  have hout0 : sumLen st.outQ = 0 := by omega
  intro c
  have hoc := sumLen_eq_zero st.outQ hout0 c
  refine ⟨?_, hoc⟩
  have hqc := hq c
  rw [hoc, List.append_nil] at hqc
  exact hqc

/-! ### The continuous scheduler: FIFO invariant and version switching -/

/-- The FIFO invariant of the continuous scheduler's persistent queues:
popped history followed by current content equals pushed history, for both
the input queue and the activation queue. -/
def NFInv (st : NFState) : Prop :=
  st.poppedIn ++ st.inQ = st.pushedIn ∧ st.poppedOut ++ st.outQ = st.pushedOut

theorem nf_push_in_inv {st : NFState} (h : NFInv st) : NFInv (nf_push_in st) := by
  constructor
  · simp only [nf_push_in, ← List.append_assoc, h.1]
  · simpa [nf_push_in] using h.2

theorem nf_push_out_inv {st : NFState} (h : NFInv st) : NFInv (nf_push_out st) := by
  constructor
  · simpa [nf_push_out] using h.1
  · simp only [nf_push_out, ← List.append_assoc, h.2]

theorem popHead_cons (l : List ℕ) (x : ℕ) :
    (popHead (l ++ [x])).1 :: (popHead (l ++ [x])).2 = l ++ [x] := by
  cases l <;> rfl

theorem nf_warm_step_inv {W i : ℕ} {st : NFState} {ev : List Ev} {st' : NFState}
    (h : nf_warm_step W i st = some (ev, st')) (hi : NFInv st) : NFInv st' := by
  simp only [nf_warm_step, Option.some.injEq, Prod.mk.injEq] at h
  obtain ⟨_, hst⟩ := h
  rw [← hst]
  exact nf_push_out_inv (nf_push_in_inv hi)

theorem nf_steady_step_inv {m W1 R : ℕ} {lastIt : Bool} {i : ℕ} {st : NFState}
    {ev : List Ev} {st' : NFState}
    (h : nf_steady_step m W1 R lastIt i st = some (ev, st')) (hi : NFInv st) :
    NFInv st' := by
  simp only [nf_steady_step] at h
  split at h
  · exact Option.noConfusion h
  · rename_i a rest heq
    have hmid : NFInv
        { nf_push_out st with
          inQ := rest, outQ := (popHead (nf_push_out st).outQ).2,
          poppedIn := (nf_push_out st).poppedIn ++ [a],
          poppedOut := (nf_push_out st).poppedOut
            ++ [(popHead (nf_push_out st).outQ).1] } := by
      have hpo := nf_push_out_inv hi
      constructor
      · show ((nf_push_out st).poppedIn ++ [a]) ++ rest = (nf_push_out st).pushedIn
        rw [List.append_assoc]
        have hone : [a] ++ rest = a :: rest := rfl
        rw [hone, ← heq]
        have hin : (nf_push_out st).poppedIn = st.poppedIn := rfl
        have hin2 : (nf_push_out st).pushedIn = st.pushedIn := rfl
        rw [hin, hin2]
        exact hi.1
      · show ((nf_push_out st).poppedOut ++ [(popHead (nf_push_out st).outQ).1])
            ++ (popHead (nf_push_out st).outQ).2 = (nf_push_out st).pushedOut
        rw [List.append_assoc]
        have hone : [(popHead (nf_push_out st).outQ).1]
            ++ (popHead (nf_push_out st).outQ).2
            = (popHead (nf_push_out st).outQ).1 :: (popHead (nf_push_out st).outQ).2 := rfl
        rw [hone]
        have hoq : (nf_push_out st).outQ = st.outQ ++ [st.nextOut] := rfl
        rw [hoq, popHead_cons, ← hoq]
        exact hpo.2
    split at h
    · simp only [Option.some.injEq, Prod.mk.injEq] at h
      obtain ⟨_, hst⟩ := h
      rw [← hst]
      exact hmid
    · simp only [Option.some.injEq, Prod.mk.injEq] at h
      obtain ⟨_, hst⟩ := h
      rw [← hst]
      exact nf_push_in_inv hmid

theorem nf_cool_step_inv {i : ℕ} {st : NFState} {ev : List Ev} {st' : NFState}
    (h : nf_cool_step i st = some (ev, st')) (hi : NFInv st) : NFInv st' := by
  simp only [nf_cool_step] at h
  split at h
  · rename_i a inRest b outRest heq1 heq2
    simp only [Option.some.injEq, Prod.mk.injEq] at h
    obtain ⟨_, hst⟩ := h
    rw [← hst]
    constructor
    · show (st.poppedIn ++ [a]) ++ inRest = st.pushedIn
      rw [List.append_assoc]
      have hone : [a] ++ inRest = a :: inRest := rfl
      rw [hone, ← heq1]
      exact hi.1
    · show (st.poppedOut ++ [b]) ++ outRest = st.pushedOut
      rw [List.append_assoc]
      have hone : [b] ++ outRest = b :: outRest := rfl
      rw [hone, ← heq2]
      exact hi.2
  · exact Option.noConfusion h

theorem runSteps_pres {σ : Type} (step : ℕ → σ → Option (List Ev × σ)) (P : σ → Prop)
    (hstep : ∀ k st ev st', step k st = some (ev, st') → P st → P st') :
    ∀ (l : List ℕ) (st : σ) (ev : List Ev) (st' : σ),
      runSteps step l st = some (ev, st') → P st → P st' := by
  intro l
  induction l with
  | nil =>
    intro st ev st' h hp
    simp only [runSteps, Option.some.injEq, Prod.mk.injEq] at h
    rw [← h.2]
    exact hp
  | cons k rest ih =>
    intro st ev st' h hp
    simp only [runSteps] at h
    obtain ⟨p, hp1, h2⟩ := Option.bind_eq_some.mp h
    obtain ⟨q, hq1, he⟩ := Option.map_eq_some'.mp h2
    rw [Prod.mk.injEq] at he
    rw [← he.2]
    exact ih p.2 q.1 q.2 (by simpa using hq1)
      (hstep k st p.1 p.2 (by simpa using hp1) hp)

/-- FIFO preservation for the continuous scheduler: one invocation takes
the persistent-queue FIFO invariant to itself. -/
theorem nf_fifo (S r m : ℕ) (fI lI : Bool) (st : NFState) (ev : List Ev)
    (st' : NFState)
    (h : forward_backward_pipelining_no_flushes S r m fI lI st = some (ev, st'))
    (hi : NFInv st) : NFInv st' := by
  simp only [forward_backward_pipelining_no_flushes] at h
  obtain ⟨pw, hw, h2⟩ := Option.bind_eq_some.mp h
  obtain ⟨ps, hs, h3⟩ := Option.bind_eq_some.mp h2
  obtain ⟨pc, hc, he⟩ := Option.map_eq_some'.mp h3
  rw [Prod.mk.injEq] at he
  rw [← he.2]
  have hi1 : NFInv pw.2 :=
    runSteps_pres _ NFInv (fun k st ev st' hh hp => nf_warm_step_inv hh hp)
      _ _ _ _ (by simpa using hw) hi
  have hi2 : ∀ (P : Prop) (inst : Decidable P),
      NFInv (@ite _ P inst (nf_push_in pw.2) pw.2) := by
    intro P inst
    split
    · exact nf_push_in_inv hi1
    · exact hi1
  have hi3 : NFInv ps.2 :=
    runSteps_pres _ NFInv (fun k st ev st' hh hp => nf_steady_step_inv hh hp)
      _ _ _ _ (by simpa using hs) (hi2 _ _)
  exact runSteps_pres _ NFInv (fun k st ev st' hh hp => nf_cool_step_inv hh hp)
    _ _ _ _ (by simpa using hc) hi3

theorem runSteps_fVers {σ : Type} (step : ℕ → σ → Option (List Ev × σ))
    (tg : ℕ → List Bool)
    (hstep : ∀ k st ev st', step k st = some (ev, st') → fVers ev = tg k) :
    ∀ (l : List ℕ) (st : σ) (ev : List Ev) (st' : σ),
      runSteps step l st = some (ev, st') → fVers ev = l.flatMap tg := by
  intro l
  induction l with
  | nil =>
    intro st ev st' h
    simp only [runSteps, Option.some.injEq, Prod.mk.injEq] at h
    rw [← h.1]
    rfl
  | cons k rest ih =>
    intro st ev st' h
    simp only [runSteps] at h
    obtain ⟨p, hp1, h2⟩ := Option.bind_eq_some.mp h
    obtain ⟨q, hq1, he⟩ := Option.map_eq_some'.mp h2
    rw [Prod.mk.injEq] at he
    rw [← he.1, fVers_append, hstep k st p.1 p.2 (by simpa using hp1),
      ih p.2 q.1 q.2 (by simpa using hq1), List.flatMap_cons]

theorem runSteps_bVers {σ : Type} (step : ℕ → σ → Option (List Ev × σ))
    (tg : ℕ → List Bool)
    (hstep : ∀ k st ev st', step k st = some (ev, st') → bVers ev = tg k) :
    ∀ (l : List ℕ) (st : σ) (ev : List Ev) (st' : σ),
      runSteps step l st = some (ev, st') → bVers ev = l.flatMap tg := by
  intro l
  induction l with
  | nil =>
    intro st ev st' h
    simp only [runSteps, Option.some.injEq, Prod.mk.injEq] at h
    rw [← h.1]
    rfl
  | cons k rest ih =>
    intro st ev st' h
    simp only [runSteps] at h
    obtain ⟨p, hp1, h2⟩ := Option.bind_eq_some.mp h
    obtain ⟨q, hq1, he⟩ := Option.map_eq_some'.mp h2
    rw [Prod.mk.injEq] at he
    rw [← he.1, bVers_append, hstep k st p.1 p.2 (by simpa using hp1),
      ih p.2 q.1 q.2 (by simpa using hq1), List.flatMap_cons]

theorem nf_warm_step_vers {W i : ℕ} {st : NFState} {ev : List Ev} {st' : NFState}
    (h : nf_warm_step W i st = some (ev, st')) :
    fVers ev = [true] ∧ bVers ev = [] := by
  simp only [nf_warm_step, Option.some.injEq, Prod.mk.injEq] at h
  obtain ⟨hev, _⟩ := h
  rw [← hev]
  constructor
  · rw [fVers_append, fVers_append]
    split <;> rfl
  · rw [bVers_append, bVers_append]
    split <;> rfl

theorem nf_steady_step_vers {m W1 R : ℕ} {lastIt : Bool} {i : ℕ} {st : NFState}
    {ev : List Ev} {st' : NFState}
    (h : nf_steady_step m W1 R lastIt i st = some (ev, st')) :
    fVers ev = [decide (i < m - W1)] ∧ bVers ev = [true] := by
  simp only [nf_steady_step] at h
  split at h
  · exact Option.noConfusion h
  · split at h
    · simp only [Option.some.injEq, Prod.mk.injEq] at h
      obtain ⟨hev, _⟩ := h
      rw [← hev]
      constructor
      · rw [fVers_append]
        by_cases hd : i < m - W1 <;> simp [fVers, hd]
      · rw [bVers_append]
        by_cases hd : i < m - W1 <;> simp [bVers, hd]
    · simp only [Option.some.injEq, Prod.mk.injEq] at h
      obtain ⟨hev, _⟩ := h
      rw [← hev]
      constructor
      · rw [fVers_append]
        by_cases hd : i < m - W1 <;> simp [fVers, hd]
      · rw [bVers_append]
        by_cases hd : i < m - W1 <;> simp [bVers, hd]

theorem nf_cool_step_vers {i : ℕ} {st : NFState} {ev : List Ev} {st' : NFState}
    (h : nf_cool_step i st = some (ev, st')) :
    fVers ev = [] ∧ bVers ev = [true] := by
  simp only [nf_cool_step] at h
  split at h
  · simp only [Option.some.injEq, Prod.mk.injEq] at h
    obtain ⟨hev, _⟩ := h
    rw [← hev]
    exact ⟨rfl, rfl⟩
  · exact Option.noConfusion h

/-- Claim C7: in the continuous scheduler, every warm-up forward and every
steady-state forward with loop index i < num_microbatches -
num_warmup_in_first_iteration runs on the older parameter version, every
later steady-state forward runs on the newer version (each forward is
immediately preceded by the corresponding optimizer switch), and every
backward (steady-state and cool-down) runs on the older version. -/
theorem noflush_version_switching (S r m : ℕ) (fI lI : Bool) (st : NFState)
    (ev : List Ev) (st' : NFState)
    (h : forward_backward_pipelining_no_flushes S r m fI lI st = some (ev, st')) :
    fVers ev = List.replicate (if fI = true then min (S - r - 1) m else 0) true
        ++ (List.range (if lI = true then m - min (S - r - 1) m else m)).map
            (fun i => decide (i < m - min (S - r - 1) m))
    ∧ ∀ v ∈ bVers ev, v = true := by
  simp only [forward_backward_pipelining_no_flushes] at h
  obtain ⟨pw, hw, h2⟩ := Option.bind_eq_some.mp h
  obtain ⟨ps, hs, h3⟩ := Option.bind_eq_some.mp h2
  obtain ⟨pc, hc, he⟩ := Option.map_eq_some'.mp h3
  rw [Prod.mk.injEq] at he
  obtain ⟨hev, _⟩ := he
  have hfw := runSteps_fVers _ (fun _ => [true])
    (fun k st ev st' hh => (nf_warm_step_vers hh).1) _ _ _ _ (by simpa using hw)
  have hfs := runSteps_fVers _ (fun i => [decide (i < m - min (S - r - 1) m)])
    (fun k st ev st' hh => (nf_steady_step_vers hh).1) _ _ _ _ (by simpa using hs)
  have hfc := runSteps_fVers _ (fun _ => [])
    (fun k st ev st' hh => (nf_cool_step_vers hh).1) _ _ _ _ (by simpa using hc)
  have hbw := runSteps_bVers _ (fun _ => [])
    (fun k st ev st' hh => (nf_warm_step_vers hh).2) _ _ _ _ (by simpa using hw)
  have hbs := runSteps_bVers _ (fun _ => [true])
    (fun k st ev st' hh => (nf_steady_step_vers hh).2) _ _ _ _ (by simpa using hs)
  have hbc := runSteps_bVers _ (fun _ => [true])
    (fun k st ev st' hh => (nf_cool_step_vers hh).2) _ _ _ _ (by simpa using hc)
  have hmidf : fVers (if fI = true then
      (if (if fI = true then min (S - r - 1) m else 0) = 0 then [Ev.Barrier] else [])
        ++ (if 0 < (if lI = true then m - min (S - r - 1) m else m)
            then [Ev.RecvFwd false] else []) else []) = [] := by
    split_ifs <;> rfl
  have hmidb : bVers (if fI = true then
      (if (if fI = true then min (S - r - 1) m else 0) = 0 then [Ev.Barrier] else [])
        ++ (if 0 < (if lI = true then m - min (S - r - 1) m else m)
            then [Ev.RecvFwd false] else []) else []) = [] := by
    split_ifs <;> rfl
  constructor
  · rw [← hev, fVers_append, fVers_append, fVers_append, hfw, hfs, hfc, hmidf,
      flatMap_const, flatMap_pure, flatMap_none, List.length_range,
      List.append_nil, List.append_nil]
  · intro v hv
    rw [← hev, bVers_append, bVers_append, bVers_append, hbw, hbs, hbc, hmidb,
      flatMap_none, flatMap_const, flatMap_const] at hv
    simp only [List.nil_append, List.append_nil, List.mem_append] at hv
    rcases hv with hv | hv <;> exact (List.eq_of_mem_replicate hv)

theorem noflush_version_switching_witness :
    ∃ ev st', forward_backward_pipelining_no_flushes 2 0 2 true true
        ⟨[], [], 0, 0, [], [], [], []⟩ = some (ev, st')
      ∧ (fVers ev = List.replicate (if true = true then min (2 - 0 - 1) 2 else 0) true
          ++ (List.range (if true = true then 2 - min (2 - 0 - 1) 2 else 2)).map
              (fun i => decide (i < 2 - min (2 - 0 - 1) 2))
        ∧ ∀ v ∈ bVers ev, v = true) := by
  obtain ⟨p, hp⟩ := Option.isSome_iff_exists.mp
    (by decide : (forward_backward_pipelining_no_flushes 2 0 2 true true
      ⟨[], [], 0, 0, [], [], [], []⟩).isSome = true)
  have hpp : forward_backward_pipelining_no_flushes 2 0 2 true true
      ⟨[], [], 0, 0, [], [], [], []⟩ = some (p.1, p.2) := by rw [hp]
  exact ⟨p.1, p.2, hpp,
    noflush_version_switching 2 0 2 true true _ p.1 p.2 hpp⟩

/-- Claim C4: in every scheduler variant, backwards pop the per-chunk FIFO
queues in exactly the order the matching forwards appended: the standard
scheduler consumes activations 0..m-1 in production order; the interleaved
scheduler ends a successful training run with every chunk's consumed-label
sequence equal to its produced-label sequence and its queue drained; the
continuous scheduler preserves the popped-plus-queue-equals-pushed FIFO
invariant of its persistent queues. -/
theorem backward_fifo_pairing :
    (∀ S r m : ℕ, ∀ gpipe : Bool,
        fLabels (forward_backward_pipelining S r m false gpipe).1 = List.range m
        ∧ bLabels (forward_backward_pipelining S r m false gpipe).1 = List.range m)
    ∧ (∀ S r m C : ℕ, ∀ ev st,
        forward_backward_pipelining_with_interleaving S r m C false = some (ev, st) →
        ∀ c, st.consumed.getD c [] = st.produced.getD c [] ∧ st.outQ.getD c [] = [])
    ∧ (∀ S r m : ℕ, ∀ fI lI : Bool, ∀ st ev st',
        forward_backward_pipelining_no_flushes S r m fI lI st = some (ev, st') →
        NFInv st → NFInv st') :=
  ⟨fun S r m gpipe => ⟨std_fLabels_eq S r m gpipe, std_bLabels_eq S r m gpipe⟩,
   fun S r m C ev st h => int_fifo S r m C ev st h,
   fun S r m fI lI st ev st' h hi => nf_fifo S r m fI lI st ev st' h hi⟩

theorem backward_fifo_pairing_witness :
    (fLabels (forward_backward_pipelining 4 1 8 false false).1 = List.range 8
      ∧ bLabels (forward_backward_pipelining 4 1 8 false false).1 = List.range 8)
    ∧ (∃ ev st, forward_backward_pipelining_with_interleaving 2 1 2 2 false
          = some (ev, st)
        ∧ ∀ c, st.consumed.getD c [] = st.produced.getD c []
            ∧ st.outQ.getD c [] = [])
    ∧ (∃ ev st', forward_backward_pipelining_no_flushes 2 0 2 true true
          ⟨[], [], 0, 0, [], [], [], []⟩ = some (ev, st') ∧ NFInv st') := by
  refine ⟨backward_fifo_pairing.1 4 1 8 false, ?_, ?_⟩
  · obtain ⟨p, hp⟩ := Option.isSome_iff_exists.mp
      (by decide : (forward_backward_pipelining_with_interleaving
        2 1 2 2 false).isSome = true)
    have hpp : forward_backward_pipelining_with_interleaving 2 1 2 2 false
        = some (p.1, p.2) := by rw [hp]
    exact ⟨p.1, p.2, hpp, backward_fifo_pairing.2.1 2 1 2 2 p.1 p.2 hpp⟩
  · obtain ⟨p, hp⟩ := Option.isSome_iff_exists.mp
      (by decide : (forward_backward_pipelining_no_flushes 2 0 2 true true
        ⟨[], [], 0, 0, [], [], [], []⟩).isSome = true)
    have hpp : forward_backward_pipelining_no_flushes 2 0 2 true true
        ⟨[], [], 0, 0, [], [], [], []⟩ = some (p.1, p.2) := by rw [hp]
    exact ⟨p.1, p.2, hpp,
      backward_fifo_pairing.2.2 2 0 2 true true _ p.1 p.2 hpp ⟨rfl, rfl⟩⟩

/-- Claim C5 counterexample: at world_size = 2, rank = 0,
num_microbatches = 4, num_model_chunks = 1, the interleaved scheduler's call
sequence with the virtual-chunk bookkeeping calls removed differs from the
standard scheduler's call sequence (the interleaved warm-up runs two
forwards before the first backward where the standard runs one). -/
theorem interleaved_single_chunk_cex :
    (forward_backward_pipelining_with_interleaving 2 0 4 1 false).map
        (fun p => nonBookkeeping p.1)
      ≠ some (nonBookkeeping (forward_backward_pipelining 2 0 4 false false).1) := by
  decide

/-- Claim C5 (amended): the interleaved scheduler with num_model_chunks = 1
does not reproduce the standard scheduler's call sequence: its warm-up count
is min(2*(world_size - rank - 1), num_microbatches) (all of them when
forward_only or num_microbatches = world_size) versus the standard
scheduler's min(world_size - rank - 1, num_microbatches) (forced to 1 when
num_microbatches = 1); the two schedulers do agree on the totals: the same
number of forward computes and, in training mode, of backward computes. -/
theorem interleaved_single_chunk_amended (S r m : ℕ) (fo : Bool) (hr : r < S)
    (hm : 1 ≤ m) :
    int_num_warmup S r m 1 fo
        = (if fo = true ∨ m = S then m else min (2 * (S - r - 1)) m)
    ∧ std_num_warmup S r m false = (if m = 1 then 1 else min (S - r - 1) m)
    ∧ (fLabels (forward_backward_pipelining S r m fo false).1).length = m
    ∧ (bLabels (forward_backward_pipelining S r m fo false).1).length
        = (if fo = true then 0 else m)
    ∧ (∀ ev st, forward_backward_pipelining_with_interleaving S r m 1 fo
          = some (ev, st) →
        (fLabels ev).length = m
          ∧ (bLabels ev).length = (if fo = true then 0 else m)) := by
  refine ⟨?_, ?_, ?_, ?_, ?_⟩
  · cases fo with
    | true => simp [int_num_warmup]
    | false =>
      by_cases hms : m = S
      · simp [int_num_warmup, hms]
      · simp only [int_num_warmup]
        rw [if_neg (show ¬(false = true) by simp), if_neg hms,
          if_neg (show ¬(false = true ∨ m = S) by simp [hms])]
        omega
  · simp [std_num_warmup]
  · cases fo with
    | true => rw [(std_fo_extraction S r m false).1, List.length_range]
    | false => rw [std_fLabels_eq, List.length_range]
  · cases fo with
    | true =>
      rw [(std_fo_extraction S r m false).2.1]
      rfl
    | false =>
      rw [std_bLabels_eq, List.length_range]
      rfl
  · intro ev st h
    obtain ⟨_, _, _, _, hfl, hbl⟩ := int_run_props S r m 1 fo ev st h
    rw [Nat.mul_one] at hfl hbl
    exact ⟨hfl, hbl⟩

theorem interleaved_single_chunk_amended_witness :
    (int_num_warmup 2 0 4 1 false
        = (if false = true ∨ 4 = 2 then 4 else min (2 * (2 - 0 - 1)) 4))
    ∧ std_num_warmup 2 0 4 false = (if 4 = 1 then 1 else min (2 - 0 - 1) 4)
    ∧ (fLabels (forward_backward_pipelining 2 0 4 false false).1).length = 4
    ∧ (bLabels (forward_backward_pipelining 2 0 4 false false).1).length
        = (if false = true then 0 else 4)
    ∧ (∀ ev st, forward_backward_pipelining_with_interleaving 2 0 4 1 false
          = some (ev, st) →
        (fLabels ev).length = 4
          ∧ (bLabels ev).length = (if false = true then 0 else 4)) :=
  interleaved_single_chunk_amended 2 0 4 false (by decide) (by decide)

theorem steady_recv_suppression_witness :
    ((steady_recv_prev_dest 4 0 2 10 4 1).1 = false
      ↔ ((0 = 0 ∧ get_model_chunk_id 4 2 (((10 + 1 : ℕ) : ℤ) + 1) true = 0)
          ∨ 1 = 4 - 1))
    ∧ ((steady_recv_next_dest 4 0 2 1).1 = false
      ↔ (0 = 4 - 1 ∧ get_model_chunk_id 4 2 (((1 : ℕ) : ℤ) + 1) false
          = (2 : ℤ) - 1)) :=
  steady_recv_suppression 4 0 2 10 4 1 (by decide) (by decide)

end Sched
